import Mathlib

/-!
# Verification of the chatgpt-archive ingestion core

A shallow embedding of the repository's ingestion pipeline:

* `src/ingest/hashing.py`   — canonical JSON serialization and fingerprints
* `src/ingest/parser.py`    — normalization of raw export records
* `src/ingest/run_ingest.py`— idempotent sync of normalized chats into storage
* `src/ingest/db.py`        — per-statement transaction granularity

JSON values are modelled by the inductive type `J`.  Python `dict`s are
modelled as insertion-ordered association lists (`List (String × J)`),
which is faithful to CPython's ordered dictionaries.  Numbers are
modelled as rationals (every JSON number literal is a rational).
Python exceptions are modelled with `Except PyExc`.
-/

/-- A JSON value, as produced by `json.load`.  Objects keep insertion
order, like Python dicts. -/
inductive J where
  | null
  | bool (b : Bool)
  | num (q : Rat)
  | str (s : String)
  | arr (xs : List J)
  | obj (kvs : List (String × J))

/-- Python truthiness (`bool(x)`) of a JSON value: `None`, `False`, `0`,
`""`, `[]`, and the empty dict are falsy; everything else is truthy. -/
def jTruthy : J → Bool
  | .null => false
  | .bool b => b
  | .num q => q != 0
  | .str s => s != ""
  | .arr xs => !xs.isEmpty
  | .obj kvs => !kvs.isEmpty

/-- Python `a or b` on JSON values. -/
def jOr (a b : J) : J := if jTruthy a then a else b

/-- First-match lookup of a key in an ordered association list, i.e.
Python `d.get(k)` returning `none` when the key is absent.  (Dicts have
unique keys, so first match is the match.) -/
def lookupKV {γ : Type _} (k : String) : List (String × γ) → Option γ
  | [] => none
  | (k', v) :: t => if k' = k then some v else lookupKV k t

/-! Structural equality of JSON values (Python `==` on parsed JSON). -/

mutual
def eqJ : J → J → Bool
  | .null, .null => true
  | .bool a, .bool b => a == b
  | .num a, .num b => a == b
  | .str a, .str b => a == b
  | .arr xs, .arr ys => eqJList xs ys
  | .obj a, .obj b => eqJKVs a b
  | _, _ => false
def eqJList : List J → List J → Bool
  | [], [] => true
  | x :: xs, y :: ys => eqJ x y && eqJList xs ys
  | _, _ => false
def eqJKVs : List (String × J) → List (String × J) → Bool
  | [], [] => true
  | a :: t1, b :: t2 => a.1 == b.1 && eqJ a.2 b.2 && eqJKVs t1 t2
  | _, _ => false
end

/-! ## Generic list machinery

Python's `sorted`/`list.sort` and `json.dumps(sort_keys=True)` sort
stably; we model them with insertion sort, which is stable and
kernel-computable. -/

/-- Strict lexicographic order on char lists by code point — the order
Python uses to compare `str` keys in `json.dumps(sort_keys=True)`. -/
def lexLt : List Char → List Char → Bool
  | [], [] => false
  | [], _ :: _ => true
  | _ :: _, [] => false
  | a :: t1, b :: t2 =>
      if a.toNat < b.toNat then true
      else if b.toNat < a.toNat then false
      else lexLt t1 t2

/-- Non-strict code-point order on strings. -/
def keyLe (a b : String) : Bool := !(lexLt b.data a.data)

/-- Insert `x` into `l` in front of the first element `y` with
`le x y`. -/
def insertSorted (le : α → α → Bool) (x : α) : List α → List α
  | [] => [x]
  | y :: t => if le x y then x :: y :: t else y :: insertSorted le x t

/-- Stable insertion sort: equal-key elements keep their input order,
exactly like Python's sort. -/
def isort (le : α → α → Bool) : List α → List α
  | [] => []
  | x :: t => insertSorted le x (isort le t)

/-! ## `src/ingest/hashing.py` -/

/-- JSON string escaping as performed by `json.dumps(..., ensure_ascii=False)`:
quote, backslash and control characters are escaped, all other characters
(unicode included) are emitted verbatim. -/
def escapeChar (c : Char) : List Char :=
  if c = '"' then ['\\', '"']
  else if c = '\\' then ['\\', '\\']
  else if c = '\n' then ['\\', 'n']
  else if c = '\t' then ['\\', 't']
  else if c = '\r' then ['\\', 'r']
  else if c.toNat < 32 then
    ['\\', 'u', '0', '0',
     (Nat.digitChar (c.toNat / 16)), (Nat.digitChar (c.toNat % 16))]
  else [c]

/-- Escape a whole string. -/
def escapeStr (s : String) : List Char :=
  (s.data.map escapeChar).flatten

/-- Serialization of a JSON number.  (The repository only ever hashes
numbers that survive `strip_volatile_fields`; the exact decimal format
is irrelevant to every claim, so integers print as integers and other
rationals in fractional notation.) -/
def numRepr (q : Rat) : List Char :=
  if q.den = 1 then (toString q.num).data
  else (toString q.num).data ++ '/' :: (toString q.den).data

/-- Comma-join, with no trailing separator — the `separators=(",", ":")`
part of `_canonical_json`. -/
def joinC : List (List Char) → List Char
  | [] => []
  | [x] => x
  | x :: t => x ++ ',' :: joinC t

/-- One `"key":value` item of a serialized object. -/
def serPair (p : String × List Char) : List Char :=
  '"' :: (escapeStr p.1 ++ '"' :: ':' :: p.2)

/-! `canonJ` is `_canonical_json` from `src/ingest/hashing.py`:
`json.dumps(obj, sort_keys=True, separators=(",", ":"), ensure_ascii=False)`.
Keys are sorted lexicographically at every nesting level and no
incidental whitespace is emitted. -/

mutual
def canonJ : J → List Char
  | .null => "null".data
  | .bool true => "true".data
  | .bool false => "false".data
  | .num q => numRepr q
  | .str s => '"' :: (escapeStr s ++ ['"'])
  | .arr xs => '[' :: (joinC (canonJList xs) ++ [']'])
  | .obj kvs =>
      '\x7b' :: (joinC ((isort (fun a b => keyLe a.1 b.1) (canonJKVs kvs)).map serPair)
        ++ ['\x7d'])
def canonJList : List J → List (List Char)
  | [] => []
  | x :: t => canonJ x :: canonJList t
def canonJKVs : List (String × J) → List (String × List Char)
  | [] => []
  | kv :: t => (kv.1, canonJ kv.2) :: canonJKVs t
end

/-- SHA-256 (`_sha256_from_string`) modelled as an injective function of
its input text: the code only ever compares digests for equality and
relies on collision-freeness, so we take the canonical serialization
itself as the digest. -/
def sha256Model (s : List Char) : List Char := s

/-- `VOLATILE_MESSAGE_KEYS` from `src/ingest/hashing.py`. -/
def volatileKey (k : String) : Bool :=
  k = "id" || k = "create_time" || k = "update_time" ||
  k = "timestamp" || k = "rating" || k = "metadata"

/-- `strip_volatile_fields`: shallow copy of the dict with the volatile
top-level keys popped (ordered dict minus some keys = filter); non-dicts
are returned as-is. -/
def stripVolatileFields : J → J
  | .obj kvs => .obj (kvs.filter (fun kv => !volatileKey kv.1))
  | j => j

/-- `hash_message`: strip volatile fields, canonicalize, hash. -/
def hashMessage (rawMessage : J) : List Char :=
  sha256Model (canonJ (stripVolatileFields rawMessage))

/-- `hash_chat(title, messages, extra_fields)`: strip volatile fields of
each message in order, build `{"title": …, "messages": …}`, add an
`"extra"` key only when `extra_fields` is truthy (`if extra_fields:`),
canonicalize, hash. -/
def hashChat (title : J) (messages : List J) (extraFields : Option J) : List Char :=
  let cleaned := messages.map stripVolatileFields
  let base := [("title", title), ("messages", J.arr cleaned)]
  let payload :=
    match extraFields with
    | some e => if jTruthy e then base ++ [("extra", e)] else base
    | none => base
  sha256Model (canonJ (.obj payload))

example : canonJ (.obj [("b", .null), ("a", .bool true)]) =
    "\x7b\"a\":true,\"b\":null\x7d".data := by decide

example : hashMessage (.obj [("role", .str "user"), ("id", .str "x")]) =
    hashMessage (.obj [("role", .str "user"), ("id", .str "y")]) := by decide

/-! ## Python attribute/exception semantics -/

/-- Python exceptions the modelled code can raise. -/
inductive PyExc where
  | attributeError
  | typeError
  deriving DecidableEq

/-- Python `x.get(k)` with default `None`: succeeds on dicts (returning
`None` for an absent key) and raises `AttributeError` on every non-dict
value. -/
def pyGet (j : J) (k : String) : Except PyExc J :=
  match j with
  | .obj kvs => .ok ((lookupKV k kvs).getD .null)
  | _ => .error .attributeError

/-- The characters Python's `str.strip()` removes by default (ASCII
whitespace; exotic unicode spaces are out of scope of every claim). -/
def pySpace (c : Char) : Bool :=
  c = ' ' || c = '\t' || c = '\n' || c = '\r' || c = '\x0b' || c = '\x0c'

/-- Python `str.strip()`: drop leading and trailing whitespace. -/
def pyStrip (s : String) : String :=
  ⟨((s.data.dropWhile pySpace).reverse.dropWhile pySpace).reverse⟩

/-! ## `src/ingest/parser.py` -/

/-- `load_conversations_json`, after `json.load` succeeded on the root
document: a dict containing a `"conversations"` key yields that value,
a list root yields itself, anything else logs a warning and yields the
empty list. -/
def loadConversationsJson (root : J) : J :=
  match root with
  | .obj kvs =>
      match lookupKV "conversations" kvs with
      | some v => v
      | none => .arr []
  | .arr xs => .arr xs
  | _ => .arr []

/-- `extract_message_role`: prefer `raw_msg["author"]["role"]` when the
author is a dict with a string role; otherwise fall back to
`raw_msg.get("role") or "assistant"`. -/
def extractMessageRole (rawMsg : J) : Except PyExc J := do
  let author ← pyGet rawMsg "author"
  match author with
  | .obj akvs =>
      match lookupKV "role" akvs with
      | some (.str r) => return .str r
      | _ => do
          let r ← pyGet rawMsg "role"
          return jOr r (.str "assistant")
  | _ => do
      let r ← pyGet rawMsg "role"
      return jOr r (.str "assistant")

/-- The newline join of the string-typed parts:
`"\n".join([p for p in parts if isinstance(p, str)])`. -/
def joinParts (ps : List J) : String :=
  String.intercalate "\n" (ps.filterMap (fun p =>
    match p with
    | .str s => some s
    | _ => none))

/-- `extract_message_content`: try `content["parts"]` (list), then
`content["text"]` (string), then `content` itself as a string, else
return the empty string. -/
def extractMessageContent (rawMsg : J) : Except PyExc String := do
  let c ← pyGet rawMsg "content"
  match c with
  | .obj ckvs =>
      match lookupKV "parts" ckvs with
      | some (.arr ps) => return pyStrip (joinParts ps)
      | _ =>
          match lookupKV "text" ckvs with
          | some (.str t) => return pyStrip t
          | _ => return ""
  | .str s => return pyStrip s
  | _ => return ""

/-- A normalized message, as built by `extract_messages_from_chat`:
`{"role": role, "content": content, "raw_json": msg}`. -/
structure NMsg where
  role : J
  content : String
  raw : J

/-- `msg_sort_key`: `m["raw_json"].get("create_time")` when it is a
number (Python counts `bool` as numeric), else `0`.  Collected messages
always carry a dict `raw_json` (role extraction would have raised
otherwise), so the total non-dict fallback is unreachable. -/
def msgSortKey (m : NMsg) : Rat :=
  match m.raw with
  | .obj kvs =>
      match lookupKV "create_time" kvs with
      | some (.num q) => q
      | some (.bool b) => if b then 1 else 0
      | _ => 0
  | _ => 0

/-- Comparator used for the stable message sort. -/
def msgLe (a b : NMsg) : Bool := decide (msgSortKey a ≤ msgSortKey b)

/-- The mapping-shape collection loop: visit the mapping's values in
insertion order, skip nodes whose `message` is falsy, and append a
normalized message for the rest.  `node.get` and the role/content
extraction raise `AttributeError` on non-dict nodes/messages, exactly
like the Python. -/
def collectMappingMsgs : List (String × J) → Except PyExc (List NMsg)
  | [] => return []
  | (_, node) :: rest => do
      let msg ← pyGet node "message"
      if jTruthy msg then
        let role ← extractMessageRole msg
        let content ← extractMessageContent msg
        let tail ← collectMappingMsgs rest
        return ⟨role, content, msg⟩ :: tail
      else
        collectMappingMsgs rest

/-- The flat-list collection loop (older exports): every item is
processed, in input order, with no skipping and no sort. -/
def collectFlatMsgs : List J → Except PyExc (List NMsg)
  | [] => return []
  | msg :: rest => do
      let role ← extractMessageRole msg
      let content ← extractMessageContent msg
      let tail ← collectFlatMsgs rest
      return ⟨role, content, msg⟩ :: tail

/-- `extract_messages_from_chat`: mapping shape (collect, then stable
sort by `msg_sort_key`), else flat `messages` list (input order kept),
else a warning and zero messages. -/
def extractMessagesFromChat (rawChat : J) : Except PyExc (List NMsg) := do
  let mapping ← pyGet rawChat "mapping"
  match mapping with
  | .obj nodes => do
      let ms ← collectMappingMsgs nodes
      return isort msgLe ms
  | _ => do
      let rawMessages ← pyGet rawChat "messages"
      match rawMessages with
      | .arr l => collectFlatMsgs l
      | _ => return []

/-- A normalized chat, as built by `normalize_chat`. -/
structure NChat where
  chatId : J
  title : J
  createTime : J
  updateTime : J
  model : J
  messages : List NMsg
  raw : J

/-- `normalize_chat`: top-level field extraction (title defaulting to
`"Untitled Chat"` when falsy) plus message extraction; the full raw
record is retained. -/
def normalizeChatE (rawChat : J) : Except PyExc NChat := do
  let chatId ← pyGet rawChat "id"
  let t ← pyGet rawChat "title"
  let createTime ← pyGet rawChat "create_time"
  let updateTime ← pyGet rawChat "update_time"
  let model ← pyGet rawChat "model"
  let messages ← extractMessagesFromChat rawChat
  return ⟨chatId, jOr t (.str "Untitled Chat"), createTime, updateTime,
          model, messages, rawChat⟩

example :
    extractMessageContent (.obj [("content", .obj [("parts", .arr [.str "a", .str "b"])])]) =
      .ok "a\nb" := rfl
example : extractMessageContent (.obj [("content", .obj [("text", .str "hi")])]) = .ok "hi" := rfl
example : extractMessageContent (.obj [("content", .str " hi ")]) = .ok "hi" := rfl
example : extractMessageContent (.obj []) = .ok "" := rfl
example : extractMessageRole (.obj []) = .ok (.str "assistant") := rfl

/-! ## `src/ingest/run_ingest.py` and `src/ingest/db.py`

Storage is a pair of tables.  Every call to `db.execute` opens a fresh
connection, runs exactly one statement and commits it (`execute` wraps
`transaction()` around a single `cur.execute`), so the unit of atomicity
is one `WOp`; `applyOps` over a *prefix* of an emitted write list is the
committed state visible after a crash at that point.  `fetch_one` on
`SELECT … WHERE chat_id = %s` uses SQL equality, under which `NULL`
never matches. -/

/-- A row of the `chats` table (projection of the columns the pipeline
reads and writes; `raw_json` is stored as the serialized normalized
chat, kept here as the value itself). -/
structure ChatRow where
  id : Nat
  chatId : J
  title : J
  createTime : J
  updateTime : J
  model : J
  hash : List Char
  contentText : String
  rawJson : NChat

/-- A row of the `messages` table. -/
structure MsgRow where
  chatId : Nat
  messageIndex : Nat
  role : J
  content : String
  createdAt : J
  rawJson : J

/-- The database state: both tables plus the next value of the
`chats.id` sequence. -/
structure DB where
  chats : List ChatRow
  msgs : List MsgRow
  nextId : Nat

/-- One committed write statement (one `db.execute`/`fetch_one(INSERT …)`
call — each is its own transaction). -/
inductive WOp where
  | insertChat (row : ChatRow)
  | updateChat (id : Nat) (title createTime updateTime model : J)
      (hash : List Char) (contentText : String) (rawJson : NChat)
  | deleteMsgs (chatDbId : Nat)
  | insertMsg (row : MsgRow)

/-- SQL equality against the `chat_id` column: `NULL` compares equal to
nothing (Postgres three-valued logic), otherwise structural equality. -/
def sqlEq (a b : J) : Bool :=
  match a, b with
  | .null, _ => false
  | _, .null => false
  | _, _ => eqJ a b

/-- `fetch_one("SELECT id, hash FROM chats WHERE chat_id = %s")`:
first stored row whose external id matches. -/
def lookupChat (db : DB) (x : J) : Option ChatRow :=
  db.chats.find? (fun r => sqlEq r.chatId x)

/-- `flatten_content`: the newline join of the non-empty stripped
message texts, stripped. -/
def flattenContent (messages : List NMsg) : String :=
  pyStrip (String.intercalate "\n" (messages.filterMap (fun m =>
    let t := pyStrip m.content
    if t = "" then none else some t)))

/-- Apply one committed statement to the database state. -/
def applyOp (db : DB) : WOp → DB
  | .insertChat row => { db with chats := db.chats ++ [row], nextId := db.nextId + 1 }
  | .updateChat id title createTime updateTime model hash contentText rawJson =>
      { db with chats := db.chats.map (fun r =>
          if r.id = id then
            { r with title := title, createTime := createTime,
                     updateTime := updateTime, model := model, hash := hash,
                     contentText := contentText, rawJson := rawJson }
          else r) }
  | .deleteMsgs chatDbId =>
      { db with msgs := db.msgs.filter (fun m => m.chatId ≠ chatDbId) }
  | .insertMsg row => { db with msgs := db.msgs ++ [row] }

/-- Apply a sequence of committed statements in order. -/
def applyOps (db : DB) (ws : List WOp) : DB := ws.foldl applyOp db

/-- Python `x or 0` used for the stored timestamps. -/
def jOrZero (j : J) : J := if jTruthy j then j else .num 0

/-- The full new chat row built by the INSERT branch of `upsert_chat`. -/
def newChatRow (n : NChat) (chatHash : List Char) (id : Nat) : ChatRow :=
  ⟨id, n.chatId, n.title, jOrZero n.createTime, jOrZero n.updateTime,
   n.model, chatHash, flattenContent n.messages, n⟩

/-- `upsert_chat`: look the chat up by external id; not found → one
INSERT returning the fresh id; found with equal hash → no writes; found
with different hash → one UPDATE of the chat row plus one DELETE of its
messages.  Returns the internal id and the emitted statements. -/
def upsertChat (n : NChat) (chatHash : List Char) (db : DB) : Nat × List WOp :=
  match lookupChat db n.chatId with
  | none => (db.nextId, [.insertChat (newChatRow n chatHash db.nextId)])
  | some existing =>
      if existing.hash = chatHash then (existing.id, [])
      else
        (existing.id,
         [.updateChat existing.id n.title (jOrZero n.createTime)
            (jOrZero n.updateTime) n.model chatHash
            (flattenContent n.messages) n,
          .deleteMsgs existing.id])

/-- `insert_messages`: one INSERT per message, with zero-based
`message_index` following the normalized order (`created_at` is the
literal NULL in the source). -/
def insertMessagesOps (chatDbId : Nat) (messages : List NMsg) : List WOp :=
  messages.enum.map (fun p =>
    .insertMsg ⟨chatDbId, p.1, p.2.role, p.2.content, .null, p.2.raw⟩)

/-- Per-chat outcome tallied by `ingest_export`. -/
inductive Outcome where
  | new
  | updated
  | unchanged
  deriving DecidableEq

/-- The summary counters of `ingest_export`. -/
structure Counts where
  new : Nat
  updated : Nat
  unchanged : Nat
  deriving DecidableEq

/-- The chat-level fingerprint exactly as `ingest_export` computes it:
`hash_chat(title=…, messages=…, extra_fields={"model": …})` over the
normalized message dicts `{"role", "content", "raw_json"}`. -/
def encodeNMsg (m : NMsg) : J :=
  .obj [("role", m.role), ("content", .str m.content), ("raw_json", m.raw)]

/-- The fingerprint `ingest_export` feeds to `upsert_chat`. -/
def hashChatPipeline (n : NChat) : List Char :=
  hashChat n.title (n.messages.map encodeNMsg) (some (.obj [("model", n.model)]))

/-- One iteration of the `ingest_export` loop on an already normalized
chat: compute the hash, fetch the pre-existing row, upsert, insert the
messages unless the chat was unchanged, and tally the outcome. -/
def ingestStep (n : NChat) (db : DB) : DB × Outcome × List WOp :=
  let chatHash := hashChatPipeline n
  let oldRow := lookupChat db n.chatId
  let (chatDbId, ws1) := upsertChat n chatHash db
  let (outcome, ws2) :=
    match oldRow with
    | none => (Outcome.new, insertMessagesOps chatDbId n.messages)
    | some r =>
        if r.hash ≠ chatHash then (Outcome.updated, insertMessagesOps chatDbId n.messages)
        else (Outcome.unchanged, [])
  (applyOps db (ws1 ++ ws2), outcome, ws1 ++ ws2)

/-- Tally an outcome. -/
def bumpCounts (c : Counts) : Outcome → Counts
  | .new => { c with new := c.new + 1 }
  | .updated => { c with updated := c.updated + 1 }
  | .unchanged => { c with unchanged := c.unchanged + 1 }

/-- The `ingest_export` loop over raw chat records: normalize, hash,
sync — sequential, with a per-record exception aborting the run (storage
failures and normalization exceptions are not caught). -/
def runIngest (raws : List J) (db : DB) : Except PyExc (DB × Counts × List WOp) :=
  match raws with
  | [] => .ok (db, ⟨0, 0, 0⟩, [])
  | r :: rest => do
      let n ← normalizeChatE r
      let (db', oc, ws) := ingestStep n db
      let (db'', c, ws') ← runIngest rest db'
      return (db'', bumpCounts c oc, ws ++ ws')

/-- `ingest_export` from the parsed root document on (the filesystem
part, `find_conversations_json`, is out of scope of the claims): load
the conversations value and run the loop.  A non-list conversations
value would fail the `len`/iteration of the Python loop; the claims
never exercise that case. -/
def ingestFromRoot (root : J) (db : DB) : Except PyExc (DB × Counts × List WOp) :=
  match loadConversationsJson root with
  | .arr l => runIngest l db
  | _ => .error .typeError

/-- Writes touching the `messages` table. -/
def msgTableWrites (ws : List WOp) : List WOp :=
  ws.filter (fun w =>
    match w with
    | .deleteMsgs _ => true
    | .insertMsg _ => true
    | _ => false)

example :
    runIngest [.obj [("id", .str "x"), ("title", .str "A")]] ⟨[], [], 1⟩ =
      .ok (⟨[newChatRow ⟨.str "x", .str "A", .null, .null, .null, [], .obj [("id", .str "x"), ("title", .str "A")]⟩ (hashChatPipeline ⟨.str "x", .str "A", .null, .null, .null, [], .obj [("id", .str "x"), ("title", .str "A")]⟩) 1], [], 2⟩,
        ⟨1, 0, 0⟩,
        [.insertChat (newChatRow ⟨.str "x", .str "A", .null, .null, .null, [], .obj [("id", .str "x"), ("title", .str "A")]⟩ (hashChatPipeline ⟨.str "x", .str "A", .null, .null, .null, [], .obj [("id", .str "x"), ("title", .str "A")]⟩) 1)]) := rfl

/-! ## Lemmas about the stable sort -/

theorem insertSorted_perm (le : α → α → Bool) (x : α) (l : List α) :
    (insertSorted le x l).Perm (x :: l) := by
  induction l with
  | nil => exact List.Perm.refl _
  | cons y t ih =>
      simp only [insertSorted]
      split
      · exact List.Perm.refl _
      · exact (ih.cons y).trans (List.Perm.swap x y t)

theorem isort_perm (le : α → α → Bool) (l : List α) : (isort le l).Perm l := by
  induction l with
  | nil => exact List.Perm.refl _
  | cons x t ih =>
      exact (insertSorted_perm le x (isort le t)).trans (ih.cons x)

theorem mem_insertSorted {le : α → α → Bool} {x y : α} {l : List α}
    (h : y ∈ insertSorted le x l) : y = x ∨ y ∈ l := by
  have := (insertSorted_perm le x l).mem_iff.mp h
  simpa using this

theorem insertSorted_pairwise {le : α → α → Bool}
    (htot : ∀ a b, le a b = true ∨ le b a = true)
    (htrans : ∀ a b c, le a b = true → le b c = true → le a c = true)
    (x : α) {l : List α} (hl : l.Pairwise (fun a b => le a b = true)) :
    (insertSorted le x l).Pairwise (fun a b => le a b = true) := by
  induction l with
  | nil => simp [insertSorted]
  | cons y t ih =>
      rw [List.pairwise_cons] at hl
      rw [insertSorted]
      split_ifs with hxy
      · refine List.pairwise_cons.mpr ⟨?_, List.pairwise_cons.mpr hl⟩
        intro z hz
        rcases List.mem_cons.mp hz with rfl | hz
        · exact hxy
        · exact htrans x y z hxy (hl.1 z hz)
      · refine List.pairwise_cons.mpr ⟨?_, ih hl.2⟩
        intro z hz
        rcases mem_insertSorted hz with rfl | hz
        · rcases htot z y with h' | h'
          · exact absurd h' hxy
          · exact h'
        · exact hl.1 z hz

theorem isort_pairwise {le : α → α → Bool}
    (htot : ∀ a b, le a b = true ∨ le b a = true)
    (htrans : ∀ a b c, le a b = true → le b c = true → le a c = true)
    (l : List α) : (isort le l).Pairwise (fun a b => le a b = true) := by
  induction l with
  | nil => simp [isort]
  | cons x t ih => exact insertSorted_pairwise htot htrans x ih

theorem filter_insertSorted {le : α → α → Bool} {p : α → Bool} {x : α}
    (h : ∀ y, p x = true → p y = true → le x y = true) (l : List α) :
    (insertSorted le x l).filter p =
      if p x = true then x :: l.filter p else l.filter p := by
  induction l with
  | nil => simp [insertSorted, List.filter_cons]
  | cons y t ih =>
      by_cases hxy : le x y = true
      · rw [insertSorted, if_pos hxy]
        by_cases hpx : p x = true <;> by_cases hpy : p y = true <;>
          simp [List.filter_cons, hpx, hpy]
      · rw [insertSorted, if_neg hxy]
        by_cases hpx : p x = true
        · have hpy : ¬ p y = true := fun hc => hxy (h y hpx hc)
          simp only [List.filter_cons, ih]
          simp [hpx, hpy]
        · simp only [List.filter_cons, ih]
          simp [hpx]

theorem filter_isort {le : α → α → Bool} {p : α → Bool}
    (h : ∀ a b, p a = true → p b = true → le a b = true) (l : List α) :
    (isort le l).filter p = l.filter p := by
  induction l with
  | nil => rfl
  | cons x t ih =>
      rw [isort, filter_insertSorted (h x)]
      by_cases hpx : p x = true
      · simp [List.filter, hpx, ih]
      · simp only [Bool.not_eq_true] at hpx
        simp [List.filter, hpx, ih]

theorem sorted_perm_unique {le : α → α → Bool} :
    ∀ {l1 l2 : List α}, l1.Perm l2 →
      l1.Pairwise (fun a b => le a b = true) →
      l2.Pairwise (fun a b => le a b = true) →
      (∀ a b, a ∈ l1 → b ∈ l1 → le a b = true → le b a = true → a = b) →
      l1 = l2
  | [], l2, hp, _, _, _ => (hp.nil_eq).symm ▸ rfl
  | a :: t1, l2, hp, h1, h2, hanti => by
      cases l2 with
      | nil => exact absurd hp.symm.nil_eq (by simp)
      | cons b t2 =>
          rw [List.pairwise_cons] at h1 h2
          have hab : a = b := by
            have hain : a ∈ b :: t2 := hp.mem_iff.mp (by simp)
            have hbin : b ∈ a :: t1 := hp.symm.mem_iff.mp (by simp)
            rcases List.mem_cons.mp hain with rfl | hain
            · rfl
            · rcases List.mem_cons.mp hbin with h | hbin
              · exact h.symm
              · exact hanti a b (by simp) (by simp [hbin])
                  (h1.1 b hbin) (h2.1 a hain)
          subst hab
          have ht : t1.Perm t2 := hp.cons_inv
          have : t1 = t2 :=
            sorted_perm_unique ht h1.2 h2.2
              (fun x y hx hy => hanti x y (by simp [hx]) (by simp [hy]))
          rw [this]

/-! ## The key order is a total order -/

theorem lexLt_asymm : ∀ a b : List Char, lexLt a b = true → lexLt b a = false
  | [], [], h => by simp [lexLt] at h
  | [], _ :: _, _ => by simp [lexLt]
  | _ :: _, [], h => by simp [lexLt] at h
  | a :: t1, b :: t2, h => by
      rw [lexLt] at h ⊢
      by_cases h1 : a.toNat < b.toNat
      · rw [if_neg (by omega), if_pos (by omega)]
      · rw [if_neg h1] at h
        by_cases h2 : b.toNat < a.toNat
        · rw [if_pos h2] at h; exact absurd h (by simp)
        · rw [if_neg h2] at h
          rw [if_neg (by omega), if_neg (by omega)]
          exact lexLt_asymm t1 t2 h

theorem lexLt_trans : ∀ a b c : List Char,
    lexLt a b = true → lexLt b c = true → lexLt a c = true
  | [], _, _ :: _, _, _ => by simp [lexLt]
  | [], b, [], _, hbc => by cases b <;> simp [lexLt] at hbc
  | _ :: _, [], _, hab, _ => by simp [lexLt] at hab
  | _ :: _, _ :: _, [], _, hbc => by simp [lexLt] at hbc
  | a :: t1, b :: t2, c :: t3, hab, hbc => by
      rw [lexLt] at hab hbc ⊢
      by_cases h1 : a.toNat < b.toNat <;> by_cases h2 : b.toNat < c.toNat
      · rw [if_pos (by omega)]
      · rw [if_neg h2] at hbc
        by_cases h3 : c.toNat < b.toNat
        · rw [if_pos h3] at hbc; exact absurd hbc (by simp)
        · rw [if_pos (by omega)]
      · rw [if_neg h1] at hab
        by_cases h3 : b.toNat < a.toNat
        · rw [if_pos h3] at hab; exact absurd hab (by simp)
        · rw [if_pos (by omega)]
      · rw [if_neg h1] at hab
        rw [if_neg h2] at hbc
        by_cases h3 : b.toNat < a.toNat
        · rw [if_pos h3] at hab; exact absurd hab (by simp)
        · by_cases h4 : c.toNat < b.toNat
          · rw [if_pos h4] at hbc; exact absurd hbc (by simp)
          · rw [if_neg h3] at hab
            rw [if_neg h4] at hbc
            rw [if_neg (by omega), if_neg (by omega)]
            exact lexLt_trans t1 t2 t3 hab hbc

theorem lexLt_eq_of_not : ∀ a b : List Char,
    lexLt a b = false → lexLt b a = false → a = b
  | [], [], _, _ => rfl
  | [], _ :: _, h, _ => by simp [lexLt] at h
  | _ :: _, [], _, h => by simp [lexLt] at h
  | a :: t1, b :: t2, hab, hba => by
      rw [lexLt] at hab hba
      by_cases h1 : a.toNat < b.toNat
      · rw [if_pos h1] at hab; exact absurd hab (by simp)
      · by_cases h2 : b.toNat < a.toNat
        · rw [if_pos h2] at hba
          exact absurd hba (by simp)
        · rw [if_neg h1, if_neg h2] at hab
          have hc : a = b := Char.ext (UInt32.ext (by omega : a.toNat = b.toNat))
          rw [if_neg h2, if_neg h1] at hba
          rw [hc, lexLt_eq_of_not t1 t2 hab hba]

theorem keyLe_total (a b : String) : keyLe a b = true ∨ keyLe b a = true := by
  unfold keyLe
  by_cases h : lexLt b.data a.data = true
  · right
    have := lexLt_asymm _ _ h
    simp [this]
  · left
    simp at h
    simp [h]

theorem keyLe_trans {a b c : String} (hab : keyLe a b = true)
    (hbc : keyLe b c = true) : keyLe a c = true := by
  unfold keyLe at hab hbc ⊢
  simp only [Bool.not_eq_eq_eq_not, Bool.not_true] at hab hbc ⊢
  by_contra hc
  simp only [Bool.not_eq_false] at hc
  by_cases h1 : lexLt a.data b.data = true
  · have := lexLt_trans _ _ _ hc h1
    simp [this] at hbc
  · simp only [Bool.not_eq_true] at h1
    have : a.data = b.data := lexLt_eq_of_not _ _ h1 hab
    rw [this] at hc
    simp [hc] at hbc

theorem keyLe_antisymm {a b : String} (hab : keyLe a b = true)
    (hba : keyLe b a = true) : a = b := by
  unfold keyLe at hab hba
  simp only [Bool.not_eq_eq_eq_not, Bool.not_true] at hab hba
  have : a.data = b.data := lexLt_eq_of_not _ _ hba hab
  exact congrArg String.mk this

theorem msgLe_total (a b : NMsg) : msgLe a b = true ∨ msgLe b a = true := by
  unfold msgLe
  rcases le_total (msgSortKey a) (msgSortKey b) with h | h
  · left; simpa using h
  · right; simpa using h

theorem msgLe_trans (a b c : NMsg) (hab : msgLe a b = true)
    (hbc : msgLe b c = true) : msgLe a c = true := by
  unfold msgLe at hab hbc ⊢
  simp only [decide_eq_true_eq] at hab hbc ⊢
  exact le_trans hab hbc

/-! ## Structural equality is equality -/

theorem sizeStrongInd {β : Type _} [SizeOf β] {P : β → Prop}
    (h : ∀ a, (∀ b : β, sizeOf b < sizeOf a → P b) → P a) : ∀ a, P a := by
  have hn : ∀ n, ∀ a : β, sizeOf a < n → P a := by
    intro n
    induction n with
    | zero => intro a ha; omega
    | succ n ihn => exact fun a ha => h a (fun b hb => ihn b (by omega))
  exact fun a => hn (sizeOf a + 1) a (by omega)

theorem sizeOf_mem_arr {x : J} {xs : List J} (h : x ∈ xs) :
    sizeOf x < sizeOf (J.arr xs) := by
  have := List.sizeOf_lt_of_mem h
  simp only [J.arr.sizeOf_spec]
  omega

theorem sizeOf_mem_obj {kv : String × J} {kvs : List (String × J)} (h : kv ∈ kvs) :
    sizeOf kv.2 < sizeOf (J.obj kvs) := by
  have h1 := List.sizeOf_lt_of_mem h
  obtain ⟨k, v⟩ := kv
  simp only [J.obj.sizeOf_spec]
  simp at h1 ⊢
  omega

theorem eqJ_refl : ∀ a : J, eqJ a a = true := by
  apply sizeStrongInd
  intro a ih
  cases a with
  | null => rfl
  | bool b => simp [eqJ]
  | num q => simp [eqJ]
  | str s => simp [eqJ]
  | arr xs =>
      rw [eqJ]
      have : ∀ ys : List J, (∀ y ∈ ys, y ∈ xs) → eqJList ys ys = true := by
        intro ys
        induction ys with
        | nil => intro _; rfl
        | cons y t iht =>
            intro hsub
            rw [eqJList]
            have hy : eqJ y y = true :=
              ih y (sizeOf_mem_arr (hsub y (by simp)))
            simp [hy, iht (fun z hz => hsub z (by simp [hz]))]
      exact this xs (fun _ h => h)
  | obj kvs =>
      rw [eqJ]
      have : ∀ l : List (String × J), (∀ kv ∈ l, kv ∈ kvs) → eqJKVs l l = true := by
        intro l
        induction l with
        | nil => intro _; rfl
        | cons kv t iht =>
            intro hsub
            rw [eqJKVs]
            have hv : eqJ kv.2 kv.2 = true :=
              ih kv.2 (sizeOf_mem_obj (hsub kv (by simp)))
            simp [hv, iht (fun z hz => hsub z (by simp [hz]))]
      exact this kvs (fun _ h => h)

theorem eqJ_sound : ∀ a : J, ∀ b : J, eqJ a b = true → a = b := by
  apply sizeStrongInd
  intro a ih
  intro b
  cases a with
  | null => cases b <;> simp [eqJ]
  | bool x => cases b <;> simp [eqJ]
  | num x => cases b <;> simp [eqJ]
  | str x => cases b <;> simp [eqJ]
  | arr xs =>
      cases b with
      | arr ys =>
          rw [eqJ]
          intro h
          have : ∀ l : List J, (∀ y ∈ l, y ∈ xs) → ∀ m, eqJList l m = true → l = m := by
            intro l
            induction l with
            | nil => intro _ m h; cases m with
                | nil => rfl
                | cons _ _ => simp [eqJList] at h
            | cons y t iht =>
                intro hsub m h
                cases m with
                | nil => simp [eqJList] at h
                | cons z u =>
                    rw [eqJList] at h
                    simp only [Bool.and_eq_true] at h
                    have hy : y = z :=
                      ih y (sizeOf_mem_arr (hsub y (by simp))) z h.1
                    rw [hy, iht (fun w hw => hsub w (by simp [hw])) u h.2]
            
          simpa using this xs (fun _ h => h) ys h
      | null => simp [eqJ]
      | bool _ => simp [eqJ]
      | num _ => simp [eqJ]
      | str _ => simp [eqJ]
      | obj _ => simp [eqJ]
  | obj kvs =>
      cases b with
      | obj kvs2 =>
          rw [eqJ]
          intro h
          have : ∀ l : List (String × J), (∀ kv ∈ l, kv ∈ kvs) →
              ∀ m, eqJKVs l m = true → l = m := by
            intro l
            induction l with
            | nil => intro _ m h; cases m with
                | nil => rfl
                | cons _ _ => simp [eqJKVs] at h
            | cons kv t iht =>
                intro hsub m h
                cases m with
                | nil => simp [eqJKVs] at h
                | cons kw u =>
                    rw [eqJKVs] at h
                    simp only [Bool.and_eq_true, beq_iff_eq] at h
                    have hv : kv.2 = kw.2 :=
                      ih kv.2 (sizeOf_mem_obj (hsub kv (by simp))) kw.2 h.1.2
                    have hk : kv.1 = kw.1 := h.1.1
                    have hkv : kv = kw := Prod.ext hk hv
                    rw [hkv, iht (fun w hw => hsub w (by simp [hw])) u h.2]
          simpa using this kvs (fun _ h => h) kvs2 h
      | null => simp [eqJ]
      | bool _ => simp [eqJ]
      | num _ => simp [eqJ]
      | str _ => simp [eqJ]
      | arr _ => simp [eqJ]

instance : DecidableEq J := fun a b =>
  decidable_of_iff (eqJ a b = true) ⟨eqJ_sound a b, fun h => h ▸ eqJ_refl a⟩

/-! ## Logical equality of JSON structures

`equivJ a b` holds when `a` and `b` carry the same keys and values at
every nesting level, with object keys presented in any order — the
"logically equal inputs" of the determinism property.  Key sets must be
duplicate-free (Python dicts cannot express duplicates anyway). -/

mutual
def equivJ : J → J → Bool
  | .null, .null => true
  | .bool a, .bool b => a == b
  | .num a, .num b => a == b
  | .str a, .str b => a == b
  | .arr xs, .arr ys => equivJList xs ys
  | .obj kvs1, .obj kvs2 =>
      kvs1.length == kvs2.length &&
      decide ((kvs1.map Prod.fst).Nodup) &&
      decide ((kvs2.map Prod.fst).Nodup) &&
      equivJLookup kvs1 kvs2
  | _, _ => false
def equivJList : List J → List J → Bool
  | [], [] => true
  | x :: xs, y :: ys => equivJ x y && equivJList xs ys
  | _, _ => false
def equivJLookup : List (String × J) → List (String × J) → Bool
  | [], _ => true
  | kv :: t, kvs2 =>
      (match lookupKV kv.1 kvs2 with
       | some v2 => equivJ kv.2 v2
       | none => false) && equivJLookup t kvs2
end

/-! Association-list lemmas used to relate lookup-equivalence to
permutation. -/

theorem lookupKV_split {γ : Type _} {k : String} {v : γ} :
    ∀ {l : List (String × γ)}, lookupKV k l = some v →
      ∃ x y, l = x ++ (k, v) :: y ∧ ∀ p ∈ x, p.1 ≠ k
  | [], h => by simp [lookupKV] at h
  | (k', v') :: t, h => by
      rw [lookupKV] at h
      by_cases hk : k' = k
      · rw [if_pos hk] at h
        subst hk
        have hv : v' = v := Option.some.inj h
        subst hv
        exact ⟨[], t, rfl, by simp⟩
      · rw [if_neg hk] at h
        obtain ⟨x, y, hxy, hx⟩ := lookupKV_split h
        exact ⟨(k', v') :: x, y, by simp [hxy], by
          intro p hp
          rcases List.mem_cons.mp hp with rfl | hp
          · exact hk
          · exact hx p hp⟩

theorem lookupKV_append_ne {γ : Type _} {k k' : String} {v : γ}
    (hne : k' ≠ k) :
    ∀ x y : List (String × γ),
      lookupKV k' (x ++ (k, v) :: y) = lookupKV k' (x ++ y)
  | [], y => by simp [lookupKV, Ne.symm hne]
  | (k2, v2) :: x, y => by
      rw [List.cons_append, lookupKV, List.cons_append, lookupKV]
      by_cases h2 : k2 = k'
      · rw [if_pos h2, if_pos h2]
      · rw [if_neg h2, if_neg h2]
        exact lookupKV_append_ne hne x y

theorem lookupKV_map_value {γ δ : Type _} (g : γ → δ) (k : String) :
    ∀ l : List (String × γ),
      lookupKV k (l.map (fun kv => (kv.1, g kv.2))) = (lookupKV k l).map g
  | [] => rfl
  | (k', v) :: t => by
      rw [List.map_cons, lookupKV, lookupKV]
      by_cases h : k' = k
      · rw [if_pos h, if_pos h]; rfl
      · rw [if_neg h, if_neg h]
        exact lookupKV_map_value g k t

theorem assoc_perm {γ : Type _} :
    ∀ (l1 l2 : List (String × γ)),
      (l1.map Prod.fst).Nodup → (l2.map Prod.fst).Nodup →
      l1.length = l2.length →
      (∀ p ∈ l1, lookupKV p.1 l2 = some p.2) →
      l1.Perm l2
  | [], l2, _, _, hlen, _ => by
      have : l2 = [] := List.length_eq_zero.mp hlen.symm
      simp [this]
  | (k, v) :: t, l2, h1, h2, hlen, hlook => by
      have hkv := hlook (k, v) (by simp)
      obtain ⟨x, y, rfl, hx⟩ := lookupKV_split hkv
      have hperm2 : (x ++ (k, v) :: y).Perm ((k, v) :: (x ++ y)) :=
        List.perm_middle
      have h1' : (t.map Prod.fst).Nodup := by
        simp only [List.map_cons, List.nodup_cons] at h1
        exact h1.2
      have hknott : k ∉ t.map Prod.fst := by
        simp only [List.map_cons, List.nodup_cons] at h1
        exact h1.1
      have h2' : ((x ++ y).map Prod.fst).Nodup := by
        have : ((x ++ (k, v) :: y).map Prod.fst).Perm (k :: (x ++ y).map Prod.fst) :=
          hperm2.map Prod.fst
        have hnd := this.nodup h2
        exact (List.nodup_cons.mp hnd).2
      have hlen' : t.length = (x ++ y).length := by
        have := hperm2.length_eq
        simp only [List.length_cons] at this hlen ⊢
        omega
      have hlook' : ∀ p ∈ t, lookupKV p.1 (x ++ y) = some p.2 := by
        intro p hp
        have hne : p.1 ≠ k := by
          intro hc
          exact hknott (hc ▸ List.mem_map_of_mem Prod.fst hp)
        rw [← lookupKV_append_ne hne x y]
        exact hlook p (by simp [hp])
      exact ((assoc_perm t (x ++ y) h1' h2' hlen' hlook').cons (k, v)).trans hperm2.symm

theorem canonJList_eq_map : ∀ xs : List J, canonJList xs = xs.map canonJ
  | [] => rfl
  | x :: t => by rw [canonJList, List.map_cons, canonJList_eq_map t]

theorem canonJKVs_eq_map : ∀ kvs : List (String × J),
    canonJKVs kvs = kvs.map (fun kv => (kv.1, canonJ kv.2))
  | [] => rfl
  | kv :: t => by rw [canonJKVs, List.map_cons, canonJKVs_eq_map t]

theorem equivJLookup_forall :
    ∀ l kvs2 : List (String × J), equivJLookup l kvs2 = true →
      ∀ kv ∈ l, ∃ v2, lookupKV kv.1 kvs2 = some v2 ∧ equivJ kv.2 v2 = true
  | [], _, _, kv, hm => by simp at hm
  | p :: t, kvs2, h, kv, hm => by
      rw [equivJLookup] at h
      simp only [Bool.and_eq_true] at h
      rcases List.mem_cons.mp hm with rfl | hm
      · rcases hl : lookupKV kv.1 kvs2 with _ | v2
        · rw [hl] at h; exact absurd h.1 (by simp)
        · rw [hl] at h; exact ⟨v2, rfl, h.1⟩
      · exact equivJLookup_forall t kvs2 h.2 kv hm

/-- Logically equal JSON structures — same keys and values at every
nesting level, keys in any order — have identical canonical
serializations; this is the heart of the hashing determinism of
`src/ingest/hashing.py`. -/
theorem canonJ_equiv : ∀ a b : J, equivJ a b = true → canonJ a = canonJ b := by
  apply sizeStrongInd (P := fun a => ∀ b : J, equivJ a b = true → canonJ a = canonJ b)
  intro a ih b h
  cases a with
  | null =>
      cases b with
      | null => rfl
      | bool _ => exact absurd h (by simp [equivJ])
      | num _ => exact absurd h (by simp [equivJ])
      | str _ => exact absurd h (by simp [equivJ])
      | arr _ => exact absurd h (by simp [equivJ])
      | obj _ => exact absurd h (by simp [equivJ])
  | bool x =>
      cases b with
      | bool y => rw [equivJ] at h; rw [beq_iff_eq.mp h]
      | null => exact absurd h (by simp [equivJ])
      | num _ => exact absurd h (by simp [equivJ])
      | str _ => exact absurd h (by simp [equivJ])
      | arr _ => exact absurd h (by simp [equivJ])
      | obj _ => exact absurd h (by simp [equivJ])
  | num x =>
      cases b with
      | num y => rw [equivJ] at h; rw [beq_iff_eq.mp h]
      | null => exact absurd h (by simp [equivJ])
      | bool _ => exact absurd h (by simp [equivJ])
      | str _ => exact absurd h (by simp [equivJ])
      | arr _ => exact absurd h (by simp [equivJ])
      | obj _ => exact absurd h (by simp [equivJ])
  | str x =>
      cases b with
      | str y => rw [equivJ] at h; rw [beq_iff_eq.mp h]
      | null => exact absurd h (by simp [equivJ])
      | bool _ => exact absurd h (by simp [equivJ])
      | num _ => exact absurd h (by simp [equivJ])
      | arr _ => exact absurd h (by simp [equivJ])
      | obj _ => exact absurd h (by simp [equivJ])
  | arr xs =>
      cases b with
      | arr ys =>
          rw [equivJ] at h
          have key : ∀ l : List J, (∀ z ∈ l, z ∈ xs) → ∀ m,
              equivJList l m = true → canonJList l = canonJList m := by
            intro l
            induction l with
            | nil =>
                intro _ m hm
                cases m with
                | nil => rfl
                | cons _ _ => simp [equivJList] at hm
            | cons z t iht =>
                intro hsub m hm
                cases m with
                | nil => simp [equivJList] at hm
                | cons w u =>
                    rw [equivJList] at hm
                    simp only [Bool.and_eq_true] at hm
                    rw [canonJList, canonJList,
                        ih z (sizeOf_mem_arr (hsub z (by simp))) w hm.1,
                        iht (fun p hp => hsub p (by simp [hp])) u hm.2]
          rw [canonJ, canonJ, key xs (fun _ hz => hz) ys h]
      | null => exact absurd h (by simp [equivJ])
      | bool _ => exact absurd h (by simp [equivJ])
      | num _ => exact absurd h (by simp [equivJ])
      | str _ => exact absurd h (by simp [equivJ])
      | obj _ => exact absurd h (by simp [equivJ])
  | obj kvs1 =>
      cases b with
      | obj kvs2 =>
          rw [equivJ] at h
          simp only [Bool.and_eq_true, beq_iff_eq, decide_eq_true_eq] at h
          obtain ⟨⟨⟨hlen, hnd1⟩, hnd2⟩, hlook⟩ := h
          have hmapfst1 : (kvs1.map (fun kv => (kv.1, canonJ kv.2))).map Prod.fst =
              kvs1.map Prod.fst := by
            rw [List.map_map]; rfl
          have hmapfst2 : (kvs2.map (fun kv => (kv.1, canonJ kv.2))).map Prod.fst =
              kvs2.map Prod.fst := by
            rw [List.map_map]; rfl
          have hAB : (kvs1.map (fun kv => (kv.1, canonJ kv.2))).Perm
              (kvs2.map (fun kv => (kv.1, canonJ kv.2))) := by
            apply assoc_perm
            · rw [hmapfst1]; exact hnd1
            · rw [hmapfst2]; exact hnd2
            · simp [hlen]
            · intro p hp
              obtain ⟨kv, hkv, rfl⟩ := List.mem_map.mp hp
              obtain ⟨v2, hl2, he2⟩ := equivJLookup_forall kvs1 kvs2 hlook kv hkv
              rw [lookupKV_map_value canonJ kv.1 kvs2, hl2]
              have : canonJ kv.2 = canonJ v2 :=
                ih kv.2 (sizeOf_mem_obj hkv) v2 he2
              simp [this]
          set le := fun a b : String × List Char => keyLe a.1 b.1 with hle
          have htot : ∀ a b : String × List Char, le a b = true ∨ le b a = true :=
            fun a b => keyLe_total a.1 b.1
          have htrans : ∀ a b c : String × List Char,
              le a b = true → le b c = true → le a c = true :=
            fun a b c hab hbc => keyLe_trans hab hbc
          have hsorteq :
              isort le (kvs1.map (fun kv => (kv.1, canonJ kv.2))) =
              isort le (kvs2.map (fun kv => (kv.1, canonJ kv.2))) := by
            apply sorted_perm_unique
              (((isort_perm le _).trans hAB).trans (isort_perm le _).symm)
              (isort_pairwise htot htrans _)
              (isort_pairwise htot htrans _)
            intro p q hp hq hpq hqp
            have hp' := (isort_perm le _).mem_iff.mp hp
            have hq' := (isort_perm le _).mem_iff.mp hq
            have hfst : p.1 = q.1 := keyLe_antisymm hpq hqp
            have hnd : ((kvs1.map (fun kv => (kv.1, canonJ kv.2))).map Prod.fst).Nodup := by
              rw [hmapfst1]; exact hnd1
            exact List.inj_on_of_nodup_map hnd hp' hq' hfst
          rw [canonJ, canonJ, canonJKVs_eq_map, canonJKVs_eq_map, hsorteq]
      | null => exact absurd h (by simp [equivJ])
      | bool _ => exact absurd h (by simp [equivJ])
      | num _ => exact absurd h (by simp [equivJ])
      | str _ => exact absurd h (by simp [equivJ])
      | arr _ => exact absurd h (by simp [equivJ])

/-! ## Stripping volatile fields preserves logical equality -/

theorem lookupKV_mem_keys {γ : Type _} {k : String} {v : γ} :
    ∀ {l : List (String × γ)}, lookupKV k l = some v → k ∈ l.map Prod.fst
  | [], h => by simp [lookupKV] at h
  | (k', v') :: t, h => by
      rw [lookupKV] at h
      by_cases hk : k' = k
      · simp [hk]
      · rw [if_neg hk] at h
        simpa using Or.inr (lookupKV_mem_keys h)

theorem lookupKV_filter_key {γ : Type _} (p : String → Bool) (k : String) :
    ∀ l : List (String × γ),
      lookupKV k (l.filter (fun kv => p kv.1)) =
        if p k = true then lookupKV k l else none
  | [] => by simp [lookupKV, List.filter_nil]
  | (k', v) :: t => by
      rw [List.filter_cons]
      by_cases hp : p k' = true
      · rw [if_pos hp, lookupKV, lookupKV]
        by_cases hk : k' = k
        · subst hk
          rw [if_pos rfl, if_pos rfl, if_pos hp]
        · rw [if_neg hk, if_neg hk]
          exact lookupKV_filter_key p k t
      · rw [if_neg hp, lookupKV]
        by_cases hk : k' = k
        · subst hk
          rw [if_pos rfl, lookupKV_filter_key p k' t]
          simp only [Bool.not_eq_true] at hp
          simp [hp]
        · rw [if_neg hk]
          exact lookupKV_filter_key p k t

theorem map_fst_filter_key {γ : Type _} (p : String → Bool) :
    ∀ l : List (String × γ),
      (l.filter (fun kv => p kv.1)).map Prod.fst = (l.map Prod.fst).filter p
  | [] => rfl
  | (k', v) :: t => by
      rw [List.filter_cons, List.map_cons, List.filter_cons]
      by_cases hp : p k' = true
      · rw [if_pos hp, List.map_cons, map_fst_filter_key p t, if_pos hp]
      · rw [if_neg hp, map_fst_filter_key p t, if_neg hp]

theorem equivJLookup_of_forall :
    ∀ l kvs2 : List (String × J),
      (∀ kv ∈ l, ∃ v2, lookupKV kv.1 kvs2 = some v2 ∧ equivJ kv.2 v2 = true) →
      equivJLookup l kvs2 = true
  | [], _, _ => rfl
  | kv :: t, kvs2, h => by
      rw [equivJLookup]
      obtain ⟨v2, hl, he⟩ := h kv (by simp)
      rw [hl]
      simp only [Bool.and_eq_true]
      exact ⟨he, equivJLookup_of_forall t kvs2 (fun p hp => h p (by simp [hp]))⟩

theorem equivJ_keys_perm {kvs1 kvs2 : List (String × J)}
    (hnd1 : (kvs1.map Prod.fst).Nodup) (hnd2 : (kvs2.map Prod.fst).Nodup)
    (hlen : kvs1.length = kvs2.length)
    (hlook : ∀ kv ∈ kvs1, ∃ v2, lookupKV kv.1 kvs2 = some v2 ∧ equivJ kv.2 v2 = true) :
    (kvs1.map Prod.fst).Perm (kvs2.map Prod.fst) := by
  have hsub : kvs1.map Prod.fst ⊆ kvs2.map Prod.fst := by
    intro k hk
    obtain ⟨kv, hkv, rfl⟩ := List.mem_map.mp hk
    obtain ⟨v2, hl, _⟩ := hlook kv hkv
    exact lookupKV_mem_keys hl
  exact (List.subperm_of_subset hnd1 hsub).perm_of_length_le (by simp [hlen])

theorem equivJ_strip {a b : J} (h : equivJ a b = true) :
    equivJ (stripVolatileFields a) (stripVolatileFields b) = true := by
  cases a with
  | obj kvs1 =>
      cases b with
      | obj kvs2 =>
          rw [equivJ] at h
          simp only [Bool.and_eq_true, beq_iff_eq, decide_eq_true_eq] at h
          obtain ⟨⟨⟨hlen, hnd1⟩, hnd2⟩, hlook⟩ := h
          have hfor := equivJLookup_forall kvs1 kvs2 hlook
          have hkperm := equivJ_keys_perm hnd1 hnd2 hlen hfor
          rw [stripVolatileFields, stripVolatileFields, equivJ]
          simp only [Bool.and_eq_true, beq_iff_eq, decide_eq_true_eq]
          have hm1 := map_fst_filter_key (fun k => !volatileKey k) kvs1
          have hm2 := map_fst_filter_key (fun k => !volatileKey k) kvs2
          refine ⟨⟨⟨?_, ?_⟩, ?_⟩, ?_⟩
          · rw [← List.length_map (kvs1.filter _) Prod.fst,
                ← List.length_map (kvs2.filter _) Prod.fst, hm1, hm2]
            exact (hkperm.filter _).length_eq
          · rw [hm1]
            exact hnd1.filter _
          · rw [hm2]
            exact hnd2.filter _
          · apply equivJLookup_of_forall
            intro kv hkv
            have hmem := List.mem_filter.mp hkv
            obtain ⟨v2, hl, he⟩ := hfor kv hmem.1
            refine ⟨v2, ?_, he⟩
            rw [lookupKV_filter_key (fun k => !volatileKey k) kv.1 kvs2,
                if_pos hmem.2, hl]
      | null => simp [equivJ] at h
      | bool _ => simp [equivJ] at h
      | num _ => simp [equivJ] at h
      | str _ => simp [equivJ] at h
      | arr _ => simp [equivJ] at h
  | null => cases b <;> simp [equivJ] at h ⊢ <;> simp [stripVolatileFields]
  | bool x => cases b <;> simp [equivJ] at h ⊢ <;> simp [stripVolatileFields, h, equivJ]
  | num x => cases b <;> simp [equivJ] at h ⊢ <;> simp [stripVolatileFields, h, equivJ]
  | str x => cases b <;> simp [equivJ] at h ⊢ <;> simp [stripVolatileFields, h, equivJ]
  | arr xs => cases b <;> simp [equivJ] at h ⊢ <;> simp [stripVolatileFields, equivJ, h]

theorem equivJList_length : ∀ {xs ys : List J}, equivJList xs ys = true →
    xs.length = ys.length
  | [], [], _ => rfl
  | [], _ :: _, h => by simp [equivJList] at h
  | _ :: _, [], h => by simp [equivJList] at h
  | x :: xs, y :: ys, h => by
      rw [equivJList] at h
      simp only [Bool.and_eq_true] at h
      simp [equivJList_length h.2]

theorem equivJ_truthy {a b : J} (h : equivJ a b = true) : jTruthy a = jTruthy b := by
  cases a <;> cases b <;> simp_all [equivJ, jTruthy]
  · rename_i xs ys
    have hl := equivJList_length h
    cases xs <;> cases ys <;> simp_all
  · rename_i kvs1 kvs2
    obtain ⟨⟨⟨hlen, _⟩, _⟩, _⟩ := h
    cases kvs1 <;> cases kvs2 <;> simp_all

/-- Logical equality of the optional `extra_fields` argument. -/
def equivJOpt : Option J → Option J → Bool
  | none, none => true
  | some a, some b => equivJ a b
  | _, _ => false

theorem hashChat_none (t : J) (ms : List J) :
    hashChat t ms none =
      canonJ (.obj [("title", t), ("messages", .arr (ms.map stripVolatileFields))]) := rfl

theorem hashChat_some (t : J) (ms : List J) (e : J) :
    hashChat t ms (some e) =
      canonJ (.obj (if jTruthy e = true then
        [("title", t), ("messages", J.arr (ms.map stripVolatileFields))] ++ [("extra", e)]
      else
        [("title", t), ("messages", J.arr (ms.map stripVolatileFields))])) := rfl

theorem canonJ_obj_congr {kvs1 kvs2 : List (String × J)}
    (h : canonJKVs kvs1 = canonJKVs kvs2) : canonJ (.obj kvs1) = canonJ (.obj kvs2) := by
  rw [canonJ, canonJ, h]

theorem canonJList_strip_eq : ∀ ms1 ms2 : List J, equivJList ms1 ms2 = true →
    canonJList (ms1.map stripVolatileFields) = canonJList (ms2.map stripVolatileFields)
  | [], [], _ => rfl
  | [], _ :: _, h => by simp [equivJList] at h
  | _ :: _, [], h => by simp [equivJList] at h
  | x :: xs, y :: ys, h => by
      rw [equivJList] at h
      simp only [Bool.and_eq_true] at h
      rw [List.map_cons, List.map_cons, canonJList, canonJList,
          canonJ_equiv _ _ (equivJ_strip h.1), canonJList_strip_eq xs ys h.2]

/-- C4: `hash_message` and `hash_chat` are deterministic and insensitive
to input key ordering: for logically equal inputs — same keys and values
at every nesting level, object keys presented in any order — the digests
are identical, because `_canonical_json` sorts keys lexicographically at
every nesting level, emits no incidental whitespace and preserves all
text; determinism across repeated calls is purity of the definitions. -/
theorem c4_hash_determinism :
    (∀ m1 m2 : J, equivJ m1 m2 = true → hashMessage m1 = hashMessage m2) ∧
    (∀ (t1 t2 : J) (ms1 ms2 : List J) (e1 e2 : Option J),
      equivJ t1 t2 = true → equivJList ms1 ms2 = true → equivJOpt e1 e2 = true →
      hashChat t1 ms1 e1 = hashChat t2 ms2 e2) := by
  constructor
  · intro m1 m2 h
    unfold hashMessage sha256Model
    exact canonJ_equiv _ _ (equivJ_strip h)
  · intro t1 t2 ms1 ms2 e1 e2 ht hms he
    have hbase : canonJKVs [("title", t1), ("messages", J.arr (ms1.map stripVolatileFields))] =
        canonJKVs [("title", t2), ("messages", J.arr (ms2.map stripVolatileFields))] := by
      simp only [canonJKVs]
      rw [canonJ_equiv t1 t2 ht]
      rw [show canonJ (J.arr (ms1.map stripVolatileFields)) =
            canonJ (J.arr (ms2.map stripVolatileFields)) from by
        rw [canonJ, canonJ, canonJList_strip_eq ms1 ms2 hms]]
    cases e1 with
    | none =>
        cases e2 with
        | none => rw [hashChat_none, hashChat_none]; exact canonJ_obj_congr hbase
        | some _ => simp [equivJOpt] at he
    | some x =>
        cases e2 with
        | none => simp [equivJOpt] at he
        | some y =>
            have hxy : equivJ x y = true := he
            have htr : jTruthy x = jTruthy y := equivJ_truthy hxy
            rw [hashChat_some, hashChat_some]
            by_cases hx : jTruthy x = true
            · rw [if_pos hx, if_pos (htr ▸ hx)]
              apply canonJ_obj_congr
              rw [canonJKVs_eq_map, canonJKVs_eq_map] at hbase ⊢
              rw [List.map_append, List.map_append, hbase]
              simp only [List.map_cons, List.map_nil]
              rw [canonJ_equiv x y hxy]
            · rw [if_neg hx, if_neg (htr ▸ hx)]
              exact canonJ_obj_congr hbase

/-- Witness for C4 at concrete reordered inputs. -/
theorem c4_hash_determinism_witness :
    hashMessage (.obj [("role", .str "user"), ("meta2", .obj [("a", .num 1), ("b", .str "x")])]) =
      hashMessage (.obj [("meta2", .obj [("b", .str "x"), ("a", .num 1)]), ("role", .str "user")]) ∧
    hashChat (.str "T") [.obj [("role", .str "user"), ("content", .str "hi")]]
        (some (.obj [("model", .str "g"), ("p", .null)])) =
      hashChat (.str "T") [.obj [("content", .str "hi"), ("role", .str "user")]]
        (some (.obj [("p", .null), ("model", .str "g")])) :=
  ⟨c4_hash_determinism.1 _ _ (by decide),
   c4_hash_determinism.2 _ _ _ _ _ _ (by decide) (by decide) (by decide)⟩

/-- C3 counterexample: two messages that differ only in a volatile field
(`id`) occurring *inside* the `author` substructure produce different
fingerprints — `strip_volatile_fields` only pops top-level keys. -/
theorem c3_volatile_nested_counterexample :
    hashMessage (.obj [("role", .str "user"), ("author", .obj [("id", .str "a")])]) ≠
      hashMessage (.obj [("role", .str "user"), ("author", .obj [("id", .str "b")])]) := by
  decide

/-- C3 (amended): the fingerprint excludes volatile fields only at the
top level of each hashed message object — messages agreeing outside the
volatile top-level keys hash identically — and the chat-level pipeline
fingerprint depends only on title, the ordered messages and model,
never on the database internal id or the other chat fields. -/
theorem c3_volatile_top_level :
    (∀ kvs1 kvs2 : List (String × J),
      kvs1.filter (fun kv => !volatileKey kv.1) = kvs2.filter (fun kv => !volatileKey kv.1) →
      hashMessage (.obj kvs1) = hashMessage (.obj kvs2)) ∧
    (∀ n1 n2 : NChat, n1.title = n2.title → n1.model = n2.model →
      n1.messages = n2.messages → hashChatPipeline n1 = hashChatPipeline n2) := by
  constructor
  · intro kvs1 kvs2 h
    have e1 : hashMessage (.obj kvs1) =
        canonJ (.obj (kvs1.filter (fun kv => !volatileKey kv.1))) := rfl
    have e2 : hashMessage (.obj kvs2) =
        canonJ (.obj (kvs2.filter (fun kv => !volatileKey kv.1))) := rfl
    rw [e1, e2, h]
  · intro n1 n2 ht hm hmsg
    unfold hashChatPipeline
    rw [ht, hm, hmsg]

/-- Witness for C3's amended statement. -/
theorem c3_volatile_top_level_witness :
    hashMessage (.obj [("role", .str "u"), ("id", .str "x"), ("rating", .num 1)]) =
      hashMessage (.obj [("role", .str "u"), ("id", .str "y")]) ∧
    hashChatPipeline ⟨.str "a", .str "T", .null, .null, .null, [], .null⟩ =
      hashChatPipeline ⟨.str "b", .str "T", .num 5, .num 6, .null, [], .obj []⟩ :=
  ⟨c3_volatile_top_level.1 _ _ (by decide),
   c3_volatile_top_level.2 _ _ rfl rfl rfl⟩

/-- C9 counterexample: `hash_chat` with a supplied but *empty* extra
dict produces the same digest as omitting it — `if extra_fields:` drops
any falsy extra, so "omitted exactly when not supplied" and "supplying
extra always changes the digest" are both false. -/
theorem c9_extra_empty_counterexample :
    hashChat (.str "t") [] (some (.obj [])) = hashChat (.str "t") [] none := by
  decide

theorem isort_keys_tme (a b c : List Char) :
    isort (fun p q : String × List Char => keyLe p.1 q.1)
        [("title", a), ("messages", b), ("extra", c)] =
      [("extra", c), ("messages", b), ("title", a)] := by
  have h1 : keyLe "messages" "extra" = false := by decide
  have h2 : keyLe "title" "extra" = false := by decide
  have h3 : keyLe "title" "messages" = false := by decide
  simp [isort, insertSorted, h1, h2, h3]

theorem isort_keys_tm (a b : List Char) :
    isort (fun p q : String × List Char => keyLe p.1 q.1)
        [("title", a), ("messages", b)] =
      [("messages", b), ("title", a)] := by
  have h3 : keyLe "title" "messages" = false := by decide
  simp [isort, insertSorted, h3]

/-- C9 (amended): the `extra` key is omitted from the hashed payload
whenever `extra_fields` is not supplied *or* is falsy (in particular an
empty dict behaves exactly like omitting it); a truthy `extra` is
included and always changes the digest relative to omitting it. -/
theorem c9_extra_presence :
    (∀ (t : J) (ms : List J) (e : J), jTruthy e = false →
      hashChat t ms (some e) = hashChat t ms none) ∧
    (∀ (t : J) (ms : List J) (e : J), jTruthy e = true →
      hashChat t ms (some e) ≠ hashChat t ms none) := by
  constructor
  · intro t ms e he
    rw [hashChat_some, hashChat_none, if_neg (by simp [he])]
  · intro t ms e he heq
    rw [hashChat_some, hashChat_none, if_pos he] at heq
    have hex : escapeStr "extra" = ['e', 'x', 't', 'r', 'a'] := by decide
    have hme : escapeStr "messages" = ['m', 'e', 's', 's', 'a', 'g', 'e', 's'] := by decide
    simp only [canonJ, canonJKVs, List.cons_append, List.nil_append,
      isort_keys_tme, isort_keys_tm, List.map_cons, serPair, joinC,
      hex, hme] at heq
    simp at heq

/-- Witness for C9's amended statement. -/
theorem c9_extra_presence_witness :
    hashChat (.str "t") [] (some (.str "")) = hashChat (.str "t") [] none ∧
    hashChat (.str "t") [] (some (.obj [("model", .str "g")])) ≠
      hashChat (.str "t") [] none :=
  ⟨c9_extra_presence.1 _ _ _ (by decide), c9_extra_presence.2 _ _ _ (by decide)⟩

/-- The content-extraction table exactly as the specification words it:
a list-valued `parts` field joins its string parts with newlines and
trims; else a string `text` field trims; else a plain string content
trims; anything else is the empty string. -/
def contentSpecTable (c : J) : String :=
  match c with
  | .obj ckvs =>
      match lookupKV "parts" ckvs with
      | some (.arr ps) => pyStrip (joinParts ps)
      | _ =>
          match lookupKV "text" ckvs with
          | some (.str t) => pyStrip t
          | _ => ""
  | .str s => pyStrip s
  | _ => ""

/-- C8: for every message payload (an object, as every message the
parser hands over is), content extraction never raises and returns
exactly the spec's priority table applied to the `content` field
(`None` when absent); the four concrete table rows are included. -/
theorem c8_content_extraction :
    (∀ kvs : List (String × J),
      extractMessageContent (.obj kvs) =
        .ok (contentSpecTable ((lookupKV "content" kvs).getD .null))) ∧
    extractMessageContent
        (.obj [("content", .obj [("parts", .arr [.str "a", .str "b"])])]) = .ok "a\nb" ∧
    extractMessageContent (.obj [("content", .obj [("text", .str "hi")])]) = .ok "hi" ∧
    extractMessageContent (.obj [("content", .str " hi ")]) = .ok "hi" ∧
    extractMessageContent (.obj [("content", .null)]) = .ok "" ∧
    extractMessageContent (.obj []) = .ok "" := by
  refine ⟨?_, rfl, rfl, rfl, rfl, rfl⟩
  intro kvs
  have hbody : ∀ c : J, extractMessageContent (.obj [("content", c)]) =
      .ok (contentSpecTable c) := by
    intro c
    cases c with
    | obj ckvs =>
        show (match lookupKV "parts" ckvs with
              | some (.arr ps) => (Except.ok (pyStrip (joinParts ps)) : Except PyExc String)
              | _ =>
                  match lookupKV "text" ckvs with
                  | some (.str t) => .ok (pyStrip t)
                  | _ => .ok "") =
            .ok (match lookupKV "parts" ckvs with
              | some (.arr ps) => pyStrip (joinParts ps)
              | _ =>
                  match lookupKV "text" ckvs with
                  | some (.str t) => pyStrip t
                  | _ => "")
        have htext : (match lookupKV "text" ckvs with
              | some (.str t) => (Except.ok (pyStrip t) : Except PyExc String)
              | _ => .ok "") =
            .ok (match lookupKV "text" ckvs with
              | some (.str t) => pyStrip t
              | _ => "") := by
          cases ht : lookupKV "text" ckvs with
          | some w => cases w <;> rfl
          | none => rfl
        cases hp : lookupKV "parts" ckvs with
        | some v =>
            cases v with
            | arr ps => rfl
            | null => exact htext
            | bool b => exact htext
            | num q => exact htext
            | str s => exact htext
            | obj o => exact htext
        | none => exact htext
    | null => rfl
    | bool b => rfl
    | num q => rfl
    | str s => rfl
    | arr xs => rfl
  have hsame : extractMessageContent (.obj kvs) =
      extractMessageContent (.obj [("content", (lookupKV "content" kvs).getD .null)]) := rfl
  rw [hsame, hbody]

/-- C6: `normalize_chat` raises for structurally odd but present data —
a mapping node whose embedded `message` is a truthy non-dict makes
`extract_message_role` call `.get` on a string, an `AttributeError`,
instead of degrading to a NormalizedChat. -/
theorem c6_normalize_raises :
    normalizeChatE (.obj [("mapping", .obj [("a", .obj [("message", .str "hi")])])]) =
      .error .attributeError := rfl

/-- A parsed root that is neither a list nor an object carrying a
`conversations` key. -/
def unrecognizedRoot (root : J) : Bool :=
  match root with
  | .arr _ => false
  | .obj kvs => (lookupKV "conversations" kvs).isNone
  | _ => true

/-- C10 counterexample: an export file that parses but whose root is an
object without a `conversations` key makes the run complete
*successfully* with zero records processed and zero writes — it does
not fail. -/
theorem c10_unrecognized_root_counterexample :
    ingestFromRoot (.obj [("foo", .num 1)]) ⟨[], [], 1⟩ =
      .ok (⟨[], [], 1⟩, ⟨0, 0, 0⟩, []) := rfl

/-- C10 (amended): only a missing or unparseable export fails the run;
a parsed root that is neither a list nor a dict carrying a
`conversations` key is degraded by `load_conversations_json` to an
empty conversation list, and the run completes successfully with zero
records processed and zero writes. -/
theorem c10_unrecognized_root_succeeds (root : J) (db : DB)
    (h : unrecognizedRoot root = true) :
    ingestFromRoot root db = .ok (db, ⟨0, 0, 0⟩, []) := by
  cases root with
  | arr xs => simp [unrecognizedRoot] at h
  | obj kvs =>
      rw [unrecognizedRoot] at h
      show (match (match lookupKV "conversations" kvs with
                   | some v => v
                   | none => J.arr []) with
            | J.arr l => runIngest l db
            | _ => (.error .typeError : Except PyExc (DB × Counts × List WOp))) = _
      cases hl : lookupKV "conversations" kvs with
      | some v => rw [hl] at h; simp at h
      | none => rfl
  | null => rfl
  | bool b => rfl
  | num q => rfl
  | str s => rfl

/-- Witness for C10's amended statement. -/
theorem c10_unrecognized_root_succeeds_witness :
    ingestFromRoot (.str "nope") ⟨[], [], 5⟩ = .ok (⟨[], [], 5⟩, ⟨0, 0, 0⟩, []) :=
  c10_unrecognized_root_succeeds (.str "nope") ⟨[], [], 5⟩ (by decide)

/-- The updated chat of the C5 crash scenario: external id `"x"` with
one message whose text changed. -/
def c5Chat : NChat :=
  ⟨.str "x", .str "T", .null, .null, .null,
   [⟨.str "user", "new", .obj [("role", .str "user"), ("content", .str "new")]⟩],
   .obj []⟩

/-- The pre-existing database of the C5 crash scenario: the chat is
stored under internal id 1 with a different fingerprint and one message. -/
def c5Db : DB :=
  ⟨[⟨1, .str "x", .str "T", .num 0, .num 0, .null, ['o', 'l', 'd'], "old",
     ⟨.str "x", .str "T", .null, .null, .null, [], .null⟩⟩],
   [⟨1, 0, .str "user", "old", .null, .obj []⟩], 2⟩

/-- C5: the Updated write-group is *not* one transactional unit.  Every
`db.execute` call opens its own connection and commits a single
statement (`db.py` wraps `transaction()` around one `cur.execute`), so
the UPDATE of the chat row, the DELETE of the old messages and each
message INSERT commit separately.  In the scenario above the step emits
three statements, and the committed state after the first two — the
crash point between the delete and the reinsert — carries the new
fingerprint on the chat row while the chat has zero stored messages,
exactly what the claim says cannot happen. -/
theorem c5_per_statement_commit_crash :
    (ingestStep c5Chat c5Db).2.1 = Outcome.updated ∧
    (ingestStep c5Chat c5Db).2.2.length = 3 ∧
    (applyOps c5Db ((ingestStep c5Chat c5Db).2.2.take 2)).chats.map (fun r => r.hash) =
      [hashChatPipeline c5Chat] ∧
    (applyOps c5Db ((ingestStep c5Chat c5Db).2.2.take 2)).msgs.length = 0 := by
  refine ⟨rfl, rfl, rfl, rfl⟩

theorem applyOps_append (db : DB) (ws1 ws2 : List WOp) :
    applyOps db (ws1 ++ ws2) = applyOps (applyOps db ws1) ws2 := by
  simp [applyOps, List.foldl_append]

theorem applyOps_insertMsg_list : ∀ (rows : List MsgRow) (db : DB),
    applyOps db (rows.map WOp.insertMsg) = { db with msgs := db.msgs ++ rows }
  | [], db => by simp [applyOps]
  | r :: t, db => by
      rw [List.map_cons]
      show applyOps (applyOp db (WOp.insertMsg r)) (t.map WOp.insertMsg) = _
      rw [applyOps_insertMsg_list t]
      simp [applyOp]

theorem insertMessagesOps_eq_map (chatDbId : Nat) (messages : List NMsg) :
    insertMessagesOps chatDbId messages =
      (messages.enum.map (fun p =>
        (⟨chatDbId, p.1, p.2.role, p.2.content, .null, p.2.raw⟩ : MsgRow))).map
        WOp.insertMsg := by
  rw [insertMessagesOps, List.map_map]
  rfl

/-- C1: one pipeline iteration on a normalized chat produces exactly one
of the three outcomes.  Unseen external id: the full chat row (all
fields plus fingerprint) is inserted and every message is inserted with
zero-based indices in normalized order.  Stored fingerprint equal: no
write of any kind, the database is untouched.  Stored fingerprint
different: the chat row's mutable fields and fingerprint are updated,
all messages of that internal id are deleted, and the current messages
are inserted with fresh zero-based indices. -/
theorem c1_sync_transitions (n : NChat) (db : DB) :
    (lookupChat db n.chatId = none →
      (ingestStep n db).2.1 = Outcome.new ∧
      (ingestStep n db).1.chats =
        db.chats ++ [newChatRow n (hashChatPipeline n) db.nextId] ∧
      (ingestStep n db).1.msgs =
        db.msgs ++ n.messages.enum.map (fun p =>
          ⟨db.nextId, p.1, p.2.role, p.2.content, .null, p.2.raw⟩) ∧
      (ingestStep n db).1.nextId = db.nextId + 1) ∧
    (∀ r, lookupChat db n.chatId = some r → r.hash = hashChatPipeline n →
      (ingestStep n db).2.1 = Outcome.unchanged ∧
      (ingestStep n db).2.2 = [] ∧
      (ingestStep n db).1 = db) ∧
    (∀ r, lookupChat db n.chatId = some r → r.hash ≠ hashChatPipeline n →
      (ingestStep n db).2.1 = Outcome.updated ∧
      (ingestStep n db).1.chats = db.chats.map (fun row =>
        if row.id = r.id then
          { row with title := n.title, createTime := jOrZero n.createTime,
                     updateTime := jOrZero n.updateTime, model := n.model,
                     hash := hashChatPipeline n,
                     contentText := flattenContent n.messages, rawJson := n }
        else row) ∧
      (ingestStep n db).1.msgs =
        db.msgs.filter (fun m => m.chatId ≠ r.id) ++
          n.messages.enum.map (fun p =>
            ⟨r.id, p.1, p.2.role, p.2.content, .null, p.2.raw⟩) ∧
      (ingestStep n db).1.nextId = db.nextId) := by
  refine ⟨?_, ?_, ?_⟩
  · intro hnone
    have hstep : ingestStep n db =
        (applyOps db ([WOp.insertChat (newChatRow n (hashChatPipeline n) db.nextId)] ++
            insertMessagesOps db.nextId n.messages),
         Outcome.new,
         [WOp.insertChat (newChatRow n (hashChatPipeline n) db.nextId)] ++
            insertMessagesOps db.nextId n.messages) := by
      unfold ingestStep upsertChat
      rw [hnone]
    rw [hstep]
    rw [applyOps_append, insertMessagesOps_eq_map, applyOps_insertMsg_list]
    refine ⟨rfl, ?_, ?_, ?_⟩ <;> simp [applyOps, applyOp]
  · intro r hr hhash
    have hstep : ingestStep n db = (applyOps db [], Outcome.unchanged, []) := by
      unfold ingestStep upsertChat
      rw [hr]
      simp [hhash]
    rw [hstep]
    exact ⟨rfl, rfl, rfl⟩
  · intro r hr hhash
    have hstep : ingestStep n db =
        (applyOps db ([WOp.updateChat r.id n.title (jOrZero n.createTime)
            (jOrZero n.updateTime) n.model (hashChatPipeline n)
            (flattenContent n.messages) n,
            WOp.deleteMsgs r.id] ++ insertMessagesOps r.id n.messages),
         Outcome.updated,
         [WOp.updateChat r.id n.title (jOrZero n.createTime)
            (jOrZero n.updateTime) n.model (hashChatPipeline n)
            (flattenContent n.messages) n,
            WOp.deleteMsgs r.id] ++ insertMessagesOps r.id n.messages) := by
      unfold ingestStep upsertChat
      rw [hr]
      simp [hhash]
    rw [hstep]
    rw [show ([WOp.updateChat r.id n.title (jOrZero n.createTime)
            (jOrZero n.updateTime) n.model (hashChatPipeline n)
            (flattenContent n.messages) n,
            WOp.deleteMsgs r.id] : List WOp) =
          [WOp.updateChat r.id n.title (jOrZero n.createTime)
            (jOrZero n.updateTime) n.model (hashChatPipeline n)
            (flattenContent n.messages) n] ++ [WOp.deleteMsgs r.id] from rfl,
        applyOps_append, applyOps_append, insertMessagesOps_eq_map,
        applyOps_insertMsg_list]
    refine ⟨rfl, ?_, ?_, ?_⟩ <;> simp [applyOps, applyOp]

/-- Witness chat for C1. -/
def c1Chat : NChat :=
  ⟨.str "w", .str "W", .null, .null, .null,
   [⟨.str "user", "hello", .obj [("role", .str "user")]⟩], .null⟩

/-- A stored row whose fingerprint matches `c1Chat`. -/
def c1RowSame : ChatRow :=
  ⟨1, .str "w", .str "W", .num 0, .num 0, .null, hashChatPipeline c1Chat, "hello", c1Chat⟩

/-- A stored row with a stale fingerprint. -/
def c1RowDiff : ChatRow :=
  ⟨1, .str "w", .str "W", .num 0, .num 0, .null, ['q'], "hello", c1Chat⟩

/-- Witness for C1: one concrete database per branch of the trichotomy. -/
theorem c1_sync_transitions_witness :
    (ingestStep c1Chat ⟨[], [], 1⟩).2.1 = Outcome.new ∧
    (ingestStep c1Chat ⟨[c1RowSame], [], 2⟩).2.1 = Outcome.unchanged ∧
    (ingestStep c1Chat ⟨[c1RowSame], [], 2⟩).2.2 = [] ∧
    (ingestStep c1Chat ⟨[c1RowDiff], [], 2⟩).2.1 = Outcome.updated :=
  ⟨((c1_sync_transitions c1Chat ⟨[], [], 1⟩).1 rfl).1,
   ((c1_sync_transitions c1Chat ⟨[c1RowSame], [], 2⟩).2.1 c1RowSame rfl rfl).1,
   ((c1_sync_transitions c1Chat ⟨[c1RowSame], [], 2⟩).2.1 c1RowSame rfl rfl).2.1,
   ((c1_sync_transitions c1Chat ⟨[c1RowDiff], [], 2⟩).2.2 c1RowDiff rfl (by decide)).1⟩

/-- Is the value a dict? -/
def jIsObj : J → Bool
  | .obj _ => true
  | _ => false

/-- Does the looked-up `create_time` count as numeric for `msg_sort_key`
(`isinstance(ts, (int, float))` — Python booleans are ints)? -/
def numericTs : Option J → Bool
  | some (.num _) => true
  | some (.bool _) => true
  | _ => false

theorem collectFlatMsgs_raw : ∀ (l : List J) (msgs : List NMsg),
    collectFlatMsgs l = .ok msgs → msgs.map (fun m => m.raw) = l
  | [], msgs, h => by
      rw [collectFlatMsgs] at h
      cases h
      rfl
  | m :: rest, msgs, h => by
      rw [collectFlatMsgs] at h
      cases hrole : extractMessageRole m with
      | error e => rw [hrole] at h; simp [Bind.bind, Except.bind] at h
      | ok role =>
          rw [hrole] at h
          cases hcont : extractMessageContent m with
          | error e => rw [hcont] at h; simp [Bind.bind, Except.bind] at h
          | ok content =>
              rw [hcont] at h
              cases htail : collectFlatMsgs rest with
              | error e => rw [htail] at h; simp [Bind.bind, Except.bind] at h
              | ok tail =>
                  rw [htail] at h
                  simp only [Bind.bind, Except.bind, pure, Except.pure,
                    Except.ok.injEq] at h
                  rw [← h, List.map_cons, collectFlatMsgs_raw rest tail htail]

/-- C7: mapping-shape records sort the collected messages stably by the
numeric `create_time` key (non-numeric or missing keys count as 0, equal
keys keep encounter order); flat-list records keep the input order with
no resort. -/
theorem c7_message_ordering :
    (∀ (rawChat : J) (nodes : List (String × J)) (collected : List NMsg),
      pyGet rawChat "mapping" = .ok (.obj nodes) →
      collectMappingMsgs nodes = .ok collected →
      extractMessagesFromChat rawChat = .ok (isort msgLe collected) ∧
      (isort msgLe collected).Perm collected ∧
      (isort msgLe collected).Pairwise (fun a b => msgSortKey a ≤ msgSortKey b) ∧
      (∀ q : Rat, (isort msgLe collected).filter (fun m => msgSortKey m == q) =
        collected.filter (fun m => msgSortKey m == q))) ∧
    (∀ (rawChat : J) (v : J) (l : List J) (msgs : List NMsg),
      pyGet rawChat "mapping" = .ok v → jIsObj v = false →
      pyGet rawChat "messages" = .ok (.arr l) →
      collectFlatMsgs l = .ok msgs →
      extractMessagesFromChat rawChat = .ok msgs ∧
      msgs.map (fun m => m.raw) = l) ∧
    (∀ (m : NMsg) (kvs : List (String × J)), m.raw = .obj kvs →
      numericTs (lookupKV "create_time" kvs) = false → msgSortKey m = 0) ∧
    (∀ (m : NMsg) (kvs : List (String × J)) (q : Rat), m.raw = .obj kvs →
      lookupKV "create_time" kvs = some (.num q) → msgSortKey m = q) := by
  refine ⟨?_, ?_, ?_, ?_⟩
  · intro rawChat nodes collected hmap hcol
    have hext : extractMessagesFromChat rawChat = .ok (isort msgLe collected) := by
      unfold extractMessagesFromChat
      rw [hmap]
      simp [Bind.bind, Except.bind, hcol, pure, Except.pure]
    refine ⟨hext, isort_perm msgLe collected, ?_, ?_⟩
    · exact (isort_pairwise msgLe_total msgLe_trans collected).imp
        (fun h => by simpa [msgLe] using h)
    · intro q
      apply filter_isort
      intro a b ha hb
      simp only [beq_iff_eq] at ha hb
      simp [msgLe, ha, hb]
  · intro rawChat v l msgs hmap hobj hmsgs hflat
    refine ⟨?_, collectFlatMsgs_raw l msgs hflat⟩
    unfold extractMessagesFromChat
    rw [hmap]
    cases v with
    | obj kvs => simp [jIsObj] at hobj
    | null => simp [Bind.bind, Except.bind, hmsgs, hflat]
    | bool b => simp [Bind.bind, Except.bind, hmsgs, hflat]
    | num q => simp [Bind.bind, Except.bind, hmsgs, hflat]
    | str s => simp [Bind.bind, Except.bind, hmsgs, hflat]
    | arr xs => simp [Bind.bind, Except.bind, hmsgs, hflat]
  · intro m kvs hraw hnum
    rw [msgSortKey, hraw]
    show (match lookupKV "create_time" kvs with
          | some (.num q) => q
          | some (.bool b) => if b = true then 1 else 0
          | _ => 0 : Rat) = (0 : Rat)
    cases hl : lookupKV "create_time" kvs with
    | none => rfl
    | some v =>
        rw [hl] at hnum
        cases v <;> simp [numericTs] at hnum <;> rfl
  · intro m kvs q hraw hl
    rw [msgSortKey, hraw]
    show (match lookupKV "create_time" kvs with
          | some (.num q) => q
          | some (.bool b) => if b = true then 1 else 0
          | _ => 0 : Rat) = q
    rw [hl]

/-- Mapping-shape witness record for C7 with timestamps 100, 50, 75. -/
def c7MsgA : J :=
  .obj [("author", .obj [("role", .str "user")]), ("content", .str "a"),
        ("create_time", .num 100)]

def c7MsgB : J :=
  .obj [("author", .obj [("role", .str "user")]), ("content", .str "b"),
        ("create_time", .num 50)]

def c7MsgC : J :=
  .obj [("author", .obj [("role", .str "user")]), ("content", .str "c"),
        ("create_time", .num 75)]

def c7Nodes : List (String × J) :=
  [("n1", .obj [("message", c7MsgA)]), ("n2", .obj [("message", c7MsgB)]),
   ("n3", .obj [("message", c7MsgC)])]

def c7Collected : List NMsg :=
  [⟨.str "user", "a", c7MsgA⟩, ⟨.str "user", "b", c7MsgB⟩, ⟨.str "user", "c", c7MsgC⟩]

def c7FlatList : List J :=
  [.obj [("role", .str "user"), ("content", .str "x")],
   .obj [("role", .str "assistant"), ("content", .str "y")]]

def c7FlatMsgs : List NMsg :=
  [⟨.str "user", "x", .obj [("role", .str "user"), ("content", .str "x")]⟩,
   ⟨.str "assistant", "y", .obj [("role", .str "assistant"), ("content", .str "y")]⟩]

/-- Witness for C7: the spec's order-law instance (timestamps
`[100, 50, 75]` come out as `[50, 75, 100]`), the flat-shape identity,
and the timestamp-0 default. -/
theorem c7_message_ordering_witness :
    extractMessagesFromChat (.obj [("mapping", .obj c7Nodes)]) =
      .ok (isort msgLe c7Collected) ∧
    (isort msgLe c7Collected).map (fun m => msgSortKey m) = [50, 75, 100] ∧
    extractMessagesFromChat (.obj [("messages", .arr c7FlatList)]) = .ok c7FlatMsgs ∧
    c7FlatMsgs.map (fun m => m.raw) = c7FlatList ∧
    msgSortKey ⟨.str "user", "x", .obj [("role", .str "user")]⟩ = 0 ∧
    msgSortKey ⟨.str "user", "a", c7MsgA⟩ = 100 :=
  ⟨((c7_message_ordering.1 (.obj [("mapping", .obj c7Nodes)]) c7Nodes c7Collected
      rfl rfl)).1,
   by decide,
   (c7_message_ordering.2.1 (.obj [("messages", .arr c7FlatList)]) .null c7FlatList
      c7FlatMsgs rfl rfl rfl rfl).1,
   (c7_message_ordering.2.1 (.obj [("messages", .arr c7FlatList)]) .null c7FlatList
      c7FlatMsgs rfl rfl rfl rfl).2,
   c7_message_ordering.2.2.1 ⟨.str "user", "x", .obj [("role", .str "user")]⟩
      [("role", .str "user")] rfl rfl,
   c7_message_ordering.2.2.2 ⟨.str "user", "a", c7MsgA⟩
      [("author", .obj [("role", .str "user")]), ("content", .str "a"),
       ("create_time", .num 100)] 100 rfl rfl⟩

/-! ## Idempotence of the pipeline (C2) -/

/-- The ingest loop on already-normalized chats (projection form of the
per-record part of `ingest_export`). -/
def ingestN : List NChat → DB → DB × Counts × List WOp
  | [], db => (db, ⟨0, 0, 0⟩, [])
  | n :: t, db =>
      let s := ingestStep n db
      let rest := ingestN t s.1
      (rest.1, bumpCounts rest.2.1 s.2.1, s.2.2 ++ rest.2.2)

/-- Normalization of a whole export, in order (the pipeline interleaves
normalization with syncing; when every record normalizes, the two
decompose). -/
def normalizeAll : List J → Except PyExc (List NChat)
  | [] => .ok []
  | r :: t => do
      let n ← normalizeChatE r
      let rest ← normalizeAll t
      return n :: rest

theorem normalizeAll_length : ∀ {raws : List J} {ns : List NChat},
    normalizeAll raws = .ok ns → ns.length = raws.length
  | [], ns, h => by rw [normalizeAll] at h; cases h; rfl
  | r :: t, ns, h => by
      rw [normalizeAll] at h
      cases hn : normalizeChatE r with
      | error e => rw [hn] at h; simp [Bind.bind, Except.bind] at h
      | ok n =>
          rw [hn] at h
          cases ht : normalizeAll t with
          | error e => rw [ht] at h; simp [Bind.bind, Except.bind] at h
          | ok ns' =>
              rw [ht] at h
              simp only [Bind.bind, Except.bind, pure, Except.pure,
                Except.ok.injEq] at h
              rw [← h]
              simp [normalizeAll_length ht]

theorem runIngest_normalized : ∀ (raws : List J) (ns : List NChat) (db : DB),
    normalizeAll raws = .ok ns → runIngest raws db = .ok (ingestN ns db)
  | [], ns, db, h => by
      rw [normalizeAll] at h
      cases h
      rfl
  | r :: t, ns, db, h => by
      rw [normalizeAll] at h
      cases hn : normalizeChatE r with
      | error e => rw [hn] at h; simp [Bind.bind, Except.bind] at h
      | ok n =>
          rw [hn] at h
          cases ht : normalizeAll t with
          | error e => rw [ht] at h; simp [Bind.bind, Except.bind] at h
          | ok ns' =>
              rw [ht] at h
              simp only [Bind.bind, Except.bind, pure, Except.pure,
                Except.ok.injEq] at h
              subst h
              rw [runIngest]
              rcases hstep : ingestStep n db with ⟨db', oc, ws⟩
              simp only [Bind.bind, Except.bind, hn, hstep,
                runIngest_normalized t ns' db' ht, ingestN, pure, Except.pure]

/-- Internal ids are unique and below the id sequence — true of any
state the storage layer can be in (primary key + sequence). -/
def DBWF (db : DB) : Prop :=
  (db.chats.map (fun r => r.id)).Nodup ∧ ∀ r ∈ db.chats, r.id < db.nextId

theorem sqlEq_eq {a b : J} (h : sqlEq a b = true) : a = b := by
  cases a <;> cases b <;> first
    | (exact eqJ_sound _ _ h)
    | simp [sqlEq] at h

theorem sqlEq_self {a : J} (h : a ≠ J.null) : sqlEq a a = true := by
  cases a with
  | null => exact absurd rfl h
  | bool b => exact eqJ_refl (.bool b)
  | num q => exact eqJ_refl (.num q)
  | str s => exact eqJ_refl (.str s)
  | arr xs => exact eqJ_refl (.arr xs)
  | obj kvs => exact eqJ_refl (.obj kvs)

theorem sqlEq_of_ne {a b : J} (h : a ≠ b) : sqlEq a b = false := by
  by_contra hc
  simp only [Bool.not_eq_false] at hc
  exact h (sqlEq_eq hc)

theorem find?_append_none {p : α → Bool} {l1 : List α} (l2 : List α)
    (h : l1.find? p = none) : (l1 ++ l2).find? p = l2.find? p := by
  induction l1 with
  | nil => rfl
  | cons x t ih =>
      rw [List.find?_cons] at h
      rw [List.cons_append, List.find?_cons]
      cases hp : p x with
      | true => rw [hp] at h; simp at h
      | false =>
          rw [hp] at h
          simp only [hp]
          exact ih h

theorem find?_append_some {p : α → Bool} {l1 : List α} {r : α} (l2 : List α)
    (h : l1.find? p = some r) : (l1 ++ l2).find? p = some r := by
  induction l1 with
  | nil => simp [List.find?] at h
  | cons x t ih =>
      rw [List.find?_cons] at h
      rw [List.cons_append, List.find?_cons]
      cases hp : p x with
      | true =>
          rw [hp] at h
          simp only [hp]
          exact h
      | false =>
          rw [hp] at h
          simp only [hp]
          exact ih h

theorem find?_map_chatId {p : ChatRow → Bool} {f : ChatRow → ChatRow}
    (hp : ∀ row, p (f row) = p row) :
    ∀ l : List ChatRow, (l.map f).find? p = (l.find? p).map f
  | [] => rfl
  | x :: t => by
      rw [List.map_cons, List.find?_cons, List.find?_cons, hp x]
      cases hx : p x with
      | true => rfl
      | false => exact find?_map_chatId hp t

theorem sqlEq_nonnull {a b : J} (h : sqlEq a b = true) :
    a ≠ J.null ∧ b ≠ J.null := by
  cases a <;> cases b <;> simp_all [sqlEq]

/-- The chat-row update performed by the UPDATE branch of `upsert_chat`. -/
def updChatRow (n : NChat) (row : ChatRow) : ChatRow :=
  { row with title := n.title, createTime := jOrZero n.createTime,
             updateTime := jOrZero n.updateTime, model := n.model,
             hash := hashChatPipeline n,
             contentText := flattenContent n.messages, rawJson := n }

theorem ingestStep_eq_new (n : NChat) (db : DB)
    (hnone : lookupChat db n.chatId = none) :
    ingestStep n db =
      (⟨db.chats ++ [newChatRow n (hashChatPipeline n) db.nextId],
        db.msgs ++ n.messages.enum.map (fun p =>
          ⟨db.nextId, p.1, p.2.role, p.2.content, .null, p.2.raw⟩),
        db.nextId + 1⟩,
       Outcome.new,
       .insertChat (newChatRow n (hashChatPipeline n) db.nextId) ::
         insertMessagesOps db.nextId n.messages) := by
  have hstep : ingestStep n db =
      (applyOps db ([WOp.insertChat (newChatRow n (hashChatPipeline n) db.nextId)] ++
          insertMessagesOps db.nextId n.messages),
       Outcome.new,
       [WOp.insertChat (newChatRow n (hashChatPipeline n) db.nextId)] ++
          insertMessagesOps db.nextId n.messages) := by
    unfold ingestStep upsertChat
    rw [hnone]
  rw [hstep, applyOps_append, insertMessagesOps_eq_map, applyOps_insertMsg_list]
  simp [applyOps, applyOp, insertMessagesOps_eq_map]

theorem ingestStep_eq_unchanged {n : NChat} {db : DB} {r : ChatRow}
    (hr : lookupChat db n.chatId = some r) (hh : r.hash = hashChatPipeline n) :
    ingestStep n db = (db, Outcome.unchanged, []) := by
  have hstep : ingestStep n db = (applyOps db [], Outcome.unchanged, []) := by
    unfold ingestStep upsertChat
    rw [hr]
    simp [hh]
  rw [hstep]
  rfl

theorem ingestStep_eq_updated {n : NChat} {db : DB} {r : ChatRow}
    (hr : lookupChat db n.chatId = some r) (hh : r.hash ≠ hashChatPipeline n) :
    ingestStep n db =
      (⟨db.chats.map (fun row => if row.id = r.id then updChatRow n row else row),
        db.msgs.filter (fun m => m.chatId ≠ r.id) ++
          n.messages.enum.map (fun p =>
            ⟨r.id, p.1, p.2.role, p.2.content, .null, p.2.raw⟩),
        db.nextId⟩,
       Outcome.updated,
       .updateChat r.id n.title (jOrZero n.createTime) (jOrZero n.updateTime)
           n.model (hashChatPipeline n) (flattenContent n.messages) n ::
         .deleteMsgs r.id :: insertMessagesOps r.id n.messages) := by
  have hstep : ingestStep n db =
      (applyOps db ([WOp.updateChat r.id n.title (jOrZero n.createTime)
          (jOrZero n.updateTime) n.model (hashChatPipeline n)
          (flattenContent n.messages) n] ++ ([WOp.deleteMsgs r.id] ++
          insertMessagesOps r.id n.messages)),
       Outcome.updated,
       [WOp.updateChat r.id n.title (jOrZero n.createTime)
          (jOrZero n.updateTime) n.model (hashChatPipeline n)
          (flattenContent n.messages) n] ++ ([WOp.deleteMsgs r.id] ++
          insertMessagesOps r.id n.messages)) := by
    unfold ingestStep upsertChat
    rw [hr]
    simp [hh]
  rw [hstep, applyOps_append, applyOps_append, insertMessagesOps_eq_map,
      applyOps_insertMsg_list]
  simp [applyOps, applyOp, insertMessagesOps_eq_map, updChatRow]

theorem updIf_chatId (n : NChat) (rid : Nat) (row : ChatRow) :
    (if row.id = rid then updChatRow n row else row).chatId = row.chatId := by
  by_cases h : row.id = rid <;> simp [h, updChatRow]

theorem lookup_after_step_self (n : NChat) (db : DB) (hwf : DBWF db)
    (hnn : n.chatId ≠ J.null) :
    ∃ r', lookupChat (ingestStep n db).1 n.chatId = some r' ∧
      r'.hash = hashChatPipeline n := by
  cases hl : lookupChat db n.chatId with
  | none =>
      rw [ingestStep_eq_new n db hl]
      refine ⟨newChatRow n (hashChatPipeline n) db.nextId, ?_, rfl⟩
      show (db.chats ++ [newChatRow n (hashChatPipeline n) db.nextId]).find?
        (fun r => sqlEq r.chatId n.chatId) = _
      rw [find?_append_none _ hl, List.find?_cons]
      have hs : sqlEq (newChatRow n (hashChatPipeline n) db.nextId).chatId n.chatId =
          true := sqlEq_self hnn
      simp [hs]
  | some r =>
      by_cases hh : r.hash = hashChatPipeline n
      · rw [ingestStep_eq_unchanged hl hh]
        exact ⟨r, hl, hh⟩
      · rw [ingestStep_eq_updated hl hh]
        refine ⟨updChatRow n r, ?_, rfl⟩
        show (db.chats.map (fun row => if row.id = r.id then updChatRow n row else row)).find?
          (fun row => sqlEq row.chatId n.chatId) = _
        rw [find?_map_chatId (fun row => by rw [updIf_chatId]) db.chats]
        rw [show db.chats.find? (fun row => sqlEq row.chatId n.chatId) = some r from hl]
        simp

theorem lookup_after_step_other (n : NChat) (db : DB) (x : J) (hwf : DBWF db)
    (hx : sqlEq n.chatId x = false) :
    lookupChat (ingestStep n db).1 x = lookupChat db x := by
  cases hl : lookupChat db n.chatId with
  | none =>
      rw [ingestStep_eq_new n db hl]
      show (db.chats ++ [newChatRow n (hashChatPipeline n) db.nextId]).find?
        (fun r => sqlEq r.chatId x) = lookupChat db x
      cases hlx : db.chats.find? (fun r => sqlEq r.chatId x) with
      | some row => rw [find?_append_some _ hlx]; exact hlx.symm ▸ rfl
      | none =>
          rw [find?_append_none _ hlx, List.find?_cons]
          have : sqlEq (newChatRow n (hashChatPipeline n) db.nextId).chatId x = false := hx
          simp [this]
          exact hlx.symm
  | some r =>
      by_cases hh : r.hash = hashChatPipeline n
      · rw [ingestStep_eq_unchanged hl hh]
      · rw [ingestStep_eq_updated hl hh]
        show (db.chats.map (fun row => if row.id = r.id then updChatRow n row else row)).find?
          (fun row => sqlEq row.chatId x) = lookupChat db x
        rw [find?_map_chatId (fun row => by rw [updIf_chatId]) db.chats]
        cases hlx : db.chats.find? (fun row => sqlEq row.chatId x) with
        | none => rw [show lookupChat db x = none from hlx]; rfl
        | some row =>
            have hne : ¬ row.id = r.id := by
              intro heq
              have hrmem := List.mem_of_find?_eq_some hl
              have hrowmem := List.mem_of_find?_eq_some hlx
              have hrr : row = r :=
                List.inj_on_of_nodup_map hwf.1 hrowmem hrmem heq
              subst hrr
              have h1 : sqlEq row.chatId x = true := by
                have := List.find?_some hlx
                simpa using this
              have h2 : sqlEq row.chatId n.chatId = true := by
                have := List.find?_some hl
                simpa using this
              have hx1 : row.chatId = x := sqlEq_eq h1
              have hx2 : row.chatId = n.chatId := sqlEq_eq h2
              have hnn : row.chatId ≠ J.null := (sqlEq_nonnull h1).1
              rw [← hx2, ← hx1, sqlEq_self hnn] at hx
              exact Bool.true_eq_false.mp hx
            rw [show lookupChat db x = some row from hlx]
            simp [hne]

theorem step_wf (n : NChat) (db : DB) (hwf : DBWF db) :
    DBWF (ingestStep n db).1 := by
  cases hl : lookupChat db n.chatId with
  | none =>
      rw [ingestStep_eq_new n db hl]
      constructor
      · show ((db.chats ++ [newChatRow n (hashChatPipeline n) db.nextId]).map
          (fun r => r.id)).Nodup
        rw [List.map_append]
        refine hwf.1.append (by simp) ?_
        intro a ha hb
        simp only [List.map_cons, List.map_nil, List.mem_singleton] at hb
        obtain ⟨row, hrow, rfl⟩ := List.mem_map.mp ha
        have := hwf.2 row hrow
        rw [show (newChatRow n (hashChatPipeline n) db.nextId).id = db.nextId from rfl] at hb
        omega
      · intro r hr
        rcases List.mem_append.mp hr with h | h
        · have := hwf.2 r h
          show r.id < db.nextId + 1
          omega
        · simp only [List.mem_singleton] at h
          subst h
          show db.nextId < db.nextId + 1
          omega
  | some r =>
      by_cases hh : r.hash = hashChatPipeline n
      · rw [ingestStep_eq_unchanged hl hh]
        exact hwf
  
      · rw [ingestStep_eq_updated hl hh]
        constructor
        · show ((db.chats.map (fun row => if row.id = r.id then updChatRow n row else row)).map
            (fun row => row.id)).Nodup
          rw [List.map_map]
          have : ((fun row : ChatRow => row.id) ∘
              (fun row => if row.id = r.id then updChatRow n row else row)) =
              (fun row : ChatRow => row.id) := by
            funext row
            by_cases hid : row.id = r.id <;> simp [hid, updChatRow]
          rw [this]
          exact hwf.1
        · intro row hrow
          obtain ⟨row0, hrow0, rfl⟩ := List.mem_map.mp hrow
          have := hwf.2 row0 hrow0
          by_cases hid : row0.id = r.id <;> simp [hid, updChatRow] <;> omega

theorem ingestN_cons (n : NChat) (t : List NChat) (db : DB) :
    ingestN (n :: t) db =
      ((ingestN t (ingestStep n db).1).1,
       bumpCounts (ingestN t (ingestStep n db).1).2.1 (ingestStep n db).2.1,
       (ingestStep n db).2.2 ++ (ingestN t (ingestStep n db).1).2.2) := rfl

theorem ingestN_establishes : ∀ (ns : List NChat) (db : DB), DBWF db →
    (∀ n ∈ ns, n.chatId ≠ J.null) →
    (ns.map (fun n => n.chatId)).Nodup →
    DBWF (ingestN ns db).1 ∧
    (∀ x, (∀ m ∈ ns, sqlEq m.chatId x = false) →
      lookupChat (ingestN ns db).1 x = lookupChat db x) ∧
    (∀ n ∈ ns, ∃ r, lookupChat (ingestN ns db).1 n.chatId = some r ∧
      r.hash = hashChatPipeline n)
  | [], db, hwf, _, _ => ⟨hwf, fun _ _ => rfl, by simp⟩
  | n :: t, db, hwf, hnull, hdist => by
      have hwf1 := step_wf n db hwf
      have hnull1 : ∀ m ∈ t, m.chatId ≠ J.null :=
        fun m hm => hnull m (by simp [hm])
      have hdist1 : (t.map (fun m => m.chatId)).Nodup := by
        rw [List.map_cons, List.nodup_cons] at hdist
        exact hdist.2
      have hnotin : n.chatId ∉ t.map (fun m => m.chatId) := by
        rw [List.map_cons, List.nodup_cons] at hdist
        exact hdist.1
      obtain ⟨ihwf, ihframe, ihest⟩ :=
        ingestN_establishes t (ingestStep n db).1 hwf1 hnull1 hdist1
      have hdb1 : (ingestN (n :: t) db).1 = (ingestN t (ingestStep n db).1).1 := rfl
      refine ⟨hdb1 ▸ ihwf, ?_, ?_⟩
      · intro x hx
        rw [hdb1, ihframe x (fun m hm => hx m (by simp [hm])),
            lookup_after_step_other n db x hwf (hx n (by simp))]
      · intro m hm
        rcases List.mem_cons.mp hm with rfl | hm
        · obtain ⟨r, hr, hh⟩ := lookup_after_step_self m db hwf (hnull m (by simp))
          refine ⟨r, ?_, hh⟩
          rw [hdb1, ihframe m.chatId ?_, hr]
          intro m' hm'
          apply sqlEq_of_ne
          intro hc
          exact hnotin (hc ▸ List.mem_map_of_mem (fun m => m.chatId) hm')
        · obtain ⟨r, hr, hh⟩ := ihest m hm
          exact ⟨r, hdb1 ▸ hr, hh⟩

theorem ingestN_all_unchanged : ∀ (ns : List NChat) (db : DB),
    (∀ n ∈ ns, ∃ r, lookupChat db n.chatId = some r ∧
      r.hash = hashChatPipeline n) →
    ingestN ns db = (db, ⟨0, 0, ns.length⟩, [])
  | [], db, _ => rfl
  | n :: t, db, h => by
      obtain ⟨r, hr, hh⟩ := h n (by simp)
      rw [ingestN_cons, ingestStep_eq_unchanged hr hh,
          ingestN_all_unchanged t db (fun m hm => h m (by simp [hm]))]
      rfl

/-- C2 (amended): when every record of the export normalizes, the
normalized external ids are non-null and pairwise distinct, and the
database is well formed (unique internal ids below the sequence), the
second of two consecutive runs over the unchanged export reports every
chat `Unchanged` — zero `New`, zero `Updated` — and issues no write at
all, in particular none to the message table. -/
theorem c2_idempotence (raws : List J) (db0 : DB) (ns : List NChat)
    (hwf : DBWF db0) (hn : normalizeAll raws = .ok ns)
    (hnull : ∀ n ∈ ns, n.chatId ≠ J.null)
    (hdist : (ns.map (fun n => n.chatId)).Nodup) :
    runIngest raws db0 = .ok (ingestN ns db0) ∧
    runIngest raws (ingestN ns db0).1 =
      .ok ((ingestN ns db0).1, ⟨0, 0, raws.length⟩, []) := by
  refine ⟨runIngest_normalized raws ns db0 hn, ?_⟩
  have hpost := (ingestN_establishes ns db0 hwf hnull hdist).2.2
  rw [runIngest_normalized raws ns (ingestN ns db0).1 hn,
      ingestN_all_unchanged ns _ hpost, normalizeAll_length hn]

/-- Success projection of a pipeline run. -/
def exOk : Except PyExc (DB × Counts × List WOp) → Bool
  | .ok _ => true
  | .error _ => false

/-- Summary counters of a pipeline run (sentinel on error). -/
def exCounts : Except PyExc (DB × Counts × List WOp) → Counts
  | .ok (_, c, _) => c
  | .error _ => ⟨77, 77, 77⟩

/-- Resulting database of a pipeline run (sentinel on error). -/
def exDb : Except PyExc (DB × Counts × List WOp) → DB
  | .ok (db, _, _) => db
  | .error _ => ⟨[], [], 0⟩

/-- Number of message-table writes of a pipeline run. -/
def exMsgWrites : Except PyExc (DB × Counts × List WOp) → Nat
  | .ok (_, _, ws) => (msgTableWrites ws).length
  | .error _ => 77

/-- An export with two records sharing one external id but different
titles. -/
def c2Export : List J :=
  [.obj [("id", .str "x"), ("title", .str "A")],
   .obj [("id", .str "x"), ("title", .str "B")]]

/-- An export whose single record carries no `id` at all (stored as SQL
NULL, which `chat_id = %s` never matches). -/
def c2NullExport : List J := [.obj [("title", .str "N")]]

/-- C2 counterexample: the claim fails on two unchanged exports.  With
duplicate external ids the second run reports two `Updated` outcomes and
performs two message-table writes (the DELETEs); with a null external id
the second run reports `New` again instead of `Unchanged`. -/
theorem c2_idempotence_counterexample :
    exOk (runIngest c2Export ⟨[], [], 1⟩) = true ∧
    exCounts (runIngest c2Export (exDb (runIngest c2Export ⟨[], [], 1⟩))) =
      ⟨0, 2, 0⟩ ∧
    exMsgWrites (runIngest c2Export (exDb (runIngest c2Export ⟨[], [], 1⟩))) = 2 ∧
    exCounts (runIngest c2NullExport ⟨[], [], 1⟩) = ⟨1, 0, 0⟩ ∧
    exCounts (runIngest c2NullExport
      (exDb (runIngest c2NullExport ⟨[], [], 1⟩))) = ⟨1, 0, 0⟩ :=
  ⟨rfl, rfl, rfl, rfl, rfl⟩

/-- Witness export for C2's amended statement: distinct non-null ids. -/
def c2GoodExport : List J :=
  [.obj [("id", .str "p"), ("title", .str "P")],
   .obj [("id", .str "q"), ("title", .str "Q")]]

/-- The normalization of `c2GoodExport`. -/
def c2GoodNs : List NChat :=
  [⟨.str "p", .str "P", .null, .null, .null, [],
    .obj [("id", .str "p"), ("title", .str "P")]⟩,
   ⟨.str "q", .str "Q", .null, .null, .null, [],
    .obj [("id", .str "q"), ("title", .str "Q")]⟩]

/-- Witness for C2's amended statement. -/
theorem c2_idempotence_witness :
    runIngest c2GoodExport ⟨[], [], 1⟩ = .ok (ingestN c2GoodNs ⟨[], [], 1⟩) ∧
    runIngest c2GoodExport (ingestN c2GoodNs ⟨[], [], 1⟩).1 =
      .ok ((ingestN c2GoodNs ⟨[], [], 1⟩).1, ⟨0, 0, 2⟩, []) :=
  c2_idempotence c2GoodExport ⟨[], [], 1⟩ c2GoodNs
    (by constructor <;> simp) rfl (by decide) (by decide)
